import Mathlib

/-!
Verification development for the segregated-list memory allocator in `src/mm.c`
(Julia Noczyńska's malloc lab solution).

The heap is shallowly embedded at the block level: the region between the
prologue and the epilogue sentinel is a physical-order list of blocks, each
carrying the three fields packed into the C boundary tag (size, USED bit,
PREVFREE bit).  Byte addresses are recovered from the layout: the segregated
free-list array occupies 72 bytes at the arena base, the prologue the next
20 bytes, so the first block header sits at `base + 92` exactly as laid out
by `mm_init`.  Footers of free blocks are bitwise copies of headers
(invariant I2 of the spec), so reads that the C code performs through a
footer (`bt_prev`, coalescing with the left neighbour) are modelled by the
structural left neighbour.  Each per-bucket doubly linked free list is
modelled as the Lean list of block header addresses in list order;
`free_list_append` prepends at the head and `free_list_delete` splices one
element out, exactly the observable effect of the link-word surgery in the
C code.  The sbrk provider is modelled by a byte budget `mem`: `mem_sbrk n`
succeeds iff `n` fits in the remaining budget.  Calls into the external
world (sbrk, memcpy, memset) are recorded as events so that theorems can
speak about the exact request sizes the C code issues.

Where the C code has undefined behaviour (dereferencing an address that is
not a live block header, underflowing a `size_t` subtraction) the model
makes a documented total choice; every theorem below either avoids those
points or carries hypotheses - the spec's heap invariants - under which the
model provably coincides with the C semantics.
-/

/-- Boundary tag contents of one block: size in bytes (header included),
the USED bit, and the PREVFREE bit ("physically previous block is free"). -/
structure Block where
  size : Nat
  used : Bool
  prevfree : Bool
deriving Repr, DecidableEq

/-- Calls the allocator makes to the outside world: `mem_sbrk` requests with
their byte counts, `memcpy` and `memset` with their byte lengths. -/
inductive Event where
  | sbrkCall (n : Nat)
  | memcpyEv (n : Nat)
  | memsetEv (n : Nat)
deriving Repr, DecidableEq

/-- Allocator state.  `base` is the (16-aligned) arena start returned by the
first `mem_sbrk`; `blocks` the physical-order block list between prologue and
epilogue; `epiPrevfree` the PREVFREE bit of the zero-size epilogue header;
`seg` the nine bucket lists (block header addresses, list head first);
`last` the C global `last` (address of the physically last block, `none`
for NULL); `mem` the remaining sbrk byte budget. -/
structure MM where
  base : Nat
  blocks : List Block
  epiPrevfree : Bool
  seg : List (List Nat)
  last : Option Nat
  mem : Nat
deriving Repr, DecidableEq

/-- Default block used by total lookups at out-of-range indices. -/
def dBlk : Block := ⟨0, true, false⟩

/-- Total indexed lookup into the block list. -/
def getBlk (s : MM) (i : Nat) : Block := s.blocks.getD i dBlk

/-- Total byte count of a run of blocks. -/
def sumSizes (l : List Block) : Nat := (l.map Block.size).sum

/-- Address of the first block header: 72 bytes of bucket array plus the
20-byte prologue after the arena base (`mm_init` leaves `heap_start` there). -/
def heapStart (s : MM) : Nat := s.base + 92

/-- Header address of block `i`: `heap_start` plus the sizes of all blocks
physically before it. -/
def addrOf (s : MM) (i : Nat) : Nat := heapStart s + sumSizes (s.blocks.take i)

/-- Address of the epilogue header, the C global `heap_end`. -/
def heapEnd (s : MM) : Nat := heapStart s + sumSizes s.blocks

/-- Finds the index of the block whose header lies at the given address;
`cur` is the address of the first block of the remaining run. -/
def idxOfAddrAux : List Block → Nat → Nat → Option Nat
  | [], _, _ => none
  | b :: r, cur, t =>
    if t = cur then some 0 else Option.map (· + 1) (idxOfAddrAux r (cur + b.size) t)

/-- Index of the block whose header address is `a`, if any. -/
def idxOfAddr (s : MM) (a : Nat) : Option Nat :=
  idxOfAddrAux s.blocks (heapStart s) a

/-- Model of `bt_size(a)` for an arbitrary address: size of the block whose
header is at `a`, or 0 when `a` is not a live header (C reads garbage there;
all theorems restrict to live headers). -/
def sizeAtD (s : MM) (a : Nat) : Nat :=
  match idxOfAddr s a with
  | some i => (getBlk s i).size
  | none => 0

/-- Model of `bt_free(a)` for an arbitrary address (false off the heap). -/
def freeAtD (s : MM) (a : Nat) : Bool :=
  match idxOfAddr s a with
  | some i => !(getBlk s i).used
  | none => false

/-- Model of `bt_next`: the next header is `a` plus this block's size, and it
is returned as long as it does not pass `heap_end`; the C comparison is
`next <= heap_end`, so the epilogue header itself (at `heap_end`) is
returned, and `NULL` comes back only strictly past it. -/
def bt_next (s : MM) (a : Nat) : Option Nat :=
  let nxt := a + sizeAtD s a
  if nxt ≤ heapEnd s then some nxt else none

/-- Model of `round_up`: `(size + ALIGNMENT - 1) & -ALIGNMENT` with
`ALIGNMENT = 16`. -/
def round_up (size : Nat) : Nat := (size + 15) / 16 * 16

/-- Model of `get_index`: the comparison tree mapping a block size to one of
the nine buckets. -/
def get_index (size : Nat) : Nat :=
  if size ≤ 512 then
    if size ≤ 64 then
      if size = 16 then 0
      else if size = 32 then 1
      else 2
    else if size ≤ 256 then
      if size ≤ 128 then 3 else 4
    else 5
  else if size ≤ 2048 then
    if size ≤ 1024 then 6 else 7
  else 8

/-- Bucket `k` of the segregated list. -/
def bucketAt (s : MM) (k : Nat) : List Nat := s.seg.getD k []

/-- Observable effect of `free_list_delete`: splice the given address out of
bucket `k` (the link-word surgery in C removes exactly one occurrence and
keeps the order of the rest). -/
def segDelete (seg : List (List Nat)) (k : Nat) (a : Nat) : List (List Nat) :=
  seg.set k ((seg.getD k []).erase a)

/-- Observable effect of `free_list_append`: the block becomes the new head
of bucket `k`. -/
def segAppend (seg : List (List Nat)) (k : Nat) (a : Nat) : List (List Nat) :=
  seg.set k (a :: seg.getD k [])

/-- Overwrites the PREVFREE bit of the first block of a run; used to model
`bt_set_prevfree`/`bt_clr_prevfree` applied to a block's physical successor. -/
def setHeadPF (v : Bool) : List Block → List Block
  | [] => []
  | b :: r => { b with prevfree := v } :: r

/-- Pointer comparison `last < block_ptr` with `last` possibly NULL (NULL
compares below every block address). -/
def lastLt : Option Nat → Nat → Bool
  | none, _ => true
  | some x, y => decide (x < y)

example : get_index 16 = 0 := by decide
example : get_index 48 = 2 := by decide
example : get_index 2049 = 8 := by decide
example : round_up 28 = 32 := by decide

/-- Inner loop of `find_fit` over one bucket list: keep the smallest block of
size at least `asize`, preferring the earlier of two equal-sized fits
(the C comparison is strict: `bt_size(ptr) < bt_size(best_fit)`). -/
def scanBucket (s : MM) (asize : Nat) : Option Nat → List Nat → Option Nat
  | best, [] => best
  | none, p :: rest =>
    if asize ≤ sizeAtD s p then scanBucket s asize (some p) rest
    else scanBucket s asize none rest
  | some b, p :: rest =>
    if asize ≤ sizeAtD s p ∧ sizeAtD s p < sizeAtD s b then
      scanBucket s asize (some p) rest
    else scanBucket s asize (some b) rest

/-- Outer loop of `find_fit`: scan whole buckets in increasing index order
and stop at the first bucket that produced a fit.  (In the C code `best_fit`
is still NULL whenever a new bucket is entered, since a non-NULL value is
returned right after the inner loop.) -/
def findFitAux (s : MM) (asize : Nat) : List (List Nat) → Option Nat
  | [] => none
  | bucket :: rest =>
    match scanBucket s asize none bucket with
    | some b => some b
    | none => findFitAux s asize rest

/-- Model of `find_fit`: start at bucket `get_index asize`, scan upwards. -/
def find_fit (s : MM) (asize : Nat) : Option Nat :=
  findFitAux s asize (s.seg.drop (get_index asize))

/-- Model of `place`: unlink the chosen free block; if the remainder of the
split is at least `ALIGNMENT`, write an allocated block of `asize` bytes
(keeping its PREVFREE bit) followed by a free block of the remainder
(whose `bt_make` also sets PREVFREE in its successor), append the remainder
to its bucket, and push `last` forward if the new free tail lies beyond it;
otherwise consume the whole block.  The C remainder test
`(fsize - asize) >= ALIGNMENT` is a `size_t` subtraction; every caller
obtains the block from `find_fit`, which guarantees `asize ≤ fsize`, and
under that guarantee the `Nat` subtraction below agrees with C. -/
def place (s : MM) (a : Nat) (asize : Nat) : MM :=
  match idxOfAddr s a with
  | none => s
  | some i =>
    let b := getBlk s i
    let fsize := b.size
    let seg1 := segDelete s.seg (get_index fsize) a
    let pre := s.blocks.take i
    let rest := s.blocks.drop (i + 1)
    if 16 ≤ fsize - asize then
      let blocks1 := pre ++ [⟨asize, true, b.prevfree⟩, ⟨fsize - asize, false, false⟩]
        ++ setHeadPF true rest
      let epi1 := if rest.isEmpty then true else s.epiPrevfree
      let seg2 := segAppend seg1 (get_index (fsize - asize)) (a + asize)
      let last1 := if lastLt s.last (a + asize) then some (a + asize) else s.last
      { s with blocks := blocks1, epiPrevfree := epi1, seg := seg2, last := last1 }
    else
      let blocks1 := pre ++ [⟨fsize, true, b.prevfree⟩] ++ setHeadPF false rest
      let epi1 := if rest.isEmpty then false else s.epiPrevfree
      { s with blocks := blocks1, epiPrevfree := epi1, seg := seg1 }

/-- Model of `coalesce`, called on a just-freed block at address `a`: read
its PREVFREE bit to decide a left merge (the left neighbour's size is read
from its footer, a bitwise header copy, hence the structural neighbour
here), read the successor's USED bit for a right merge, unlink absorbed
neighbours, rewrite the merged block as free (`bt_make` with flags `FREE`
zeroes its PREVFREE bit and sets PREVFREE in the successor), push it onto
its bucket, and update `last` when the freed or absorbed block was `last`.
The C code reads the left neighbour unconditionally but uses it only under
the PREVFREE bit; under invariant I3 that bit is clear on the first block,
so the model guards the left merge with `0 < i`. -/
def coalesce (s : MM) (a : Nat) : MM :=
  match idxOfAddr s a with
  | none => s
  | some i =>
    let b := getBlk s i
    let nf := decide (i + 1 < s.blocks.length) && !(getBlk s (i + 1)).used
    let nextAddr := a + b.size
    let changeLast := decide (s.last = some a) || (decide (s.last = some nextAddr) && nf)
    let size1 := b.size + (if nf then (getBlk s (i + 1)).size else 0)
    let seg1 := if nf then segDelete s.seg (get_index (getBlk s (i + 1)).size) nextAddr else s.seg
    let doLeft := b.prevfree && decide (0 < i)
    let pb := getBlk s (i - 1)
    let size2 := size1 + (if doLeft then pb.size else 0)
    let seg2 := if doLeft then segDelete seg1 (get_index pb.size) (a - pb.size) else seg1
    let j := if doLeft then i - 1 else i
    let newAddr := if doLeft then a - pb.size else a
    let pre := s.blocks.take j
    let rest := s.blocks.drop (i + 1 + (if nf then 1 else 0))
    let blocks1 := pre ++ [⟨size2, false, false⟩] ++ setHeadPF true rest
    let epi1 := if rest.isEmpty then true else s.epiPrevfree
    let seg3 := segAppend seg2 (get_index size2) newAddr
    let last1 := if changeLast then some newAddr else s.last
    { s with blocks := blocks1, epiPrevfree := epi1, seg := seg3, last := last1 }

/-- Model of the public `free`: NULL is a no-op; otherwise rewrite the block
as free keeping its PREVFREE bit (`bt_make` also sets PREVFREE in the
successor and writes the footer), then coalesce if either neighbour is
free, else push the block onto its bucket.  An address that is not a live
payload pointer is undefined behaviour in C; the model leaves the state
unchanged there. -/
def freeMM (s : MM) (p : Nat) : MM :=
  if p = 0 then s
  else
    match idxOfAddr s (p - 4) with
    | none => s
    | some i =>
      let a := p - 4
      let b := getBlk s i
      let pre := s.blocks.take i
      let rest := s.blocks.drop (i + 1)
      let blocks1 := pre ++ [⟨b.size, false, b.prevfree⟩] ++ setHeadPF true rest
      let epi1 := if rest.isEmpty then true else s.epiPrevfree
      let s1 : MM := { s with blocks := blocks1, epiPrevfree := epi1 }
      if b.prevfree || (decide (i + 1 < s.blocks.length) && !(getBlk s (i + 1)).used) then
        coalesce s1 a
      else
        { s1 with seg := segAppend s1.seg (get_index b.size) a }

/-- Model of `extend_heap`: ask the sbrk provider for `size` bytes (recorded
as an event; failure leaves every part of the state untouched); on success,
absorb a free `last` block (unlinking it and growing the request's span by
its size), write the new allocated block where the old epilogue (or the
absorbed block) began, write a fresh epilogue, and update `last`.  Returns
the new block's header address. -/
def extend_heap (s : MM) (size : Nat) : Option Nat × MM × List Event :=
  if s.mem < size then (none, s, [Event.sbrkCall size])
  else
    let s0 : MM := { s with mem := s.mem - size }
    let ext : Option Nat :=
      match s.last with
      | some la =>
        match idxOfAddr s la with
        | some j => if (getBlk s j).used then none else some j
        | none => none
      | none => none
    match ext, s.last with
    | some j, some la =>
      let lsz := (getBlk s j).size
      let seg1 := segDelete s.seg (get_index lsz) la
      let blocks1 := s.blocks.take j ++ [⟨size + lsz, true, false⟩]
      (some la,
        { s0 with blocks := blocks1, epiPrevfree := false, seg := seg1, last := some la },
        [Event.sbrkCall size])
    | _, _ =>
      let blocks1 := s.blocks ++ [⟨size, true, false⟩]
      (some (heapEnd s),
        { s0 with blocks := blocks1, epiPrevfree := false, last := some (heapEnd s) },
        [Event.sbrkCall size])

/-- Size of the physically last block when `last` is non-NULL and free, else
zero: the amount `malloc` subtracts from the heap-extension request. -/
def lastFreeSize (s : MM) : Nat :=
  match s.last with
  | some la => if freeAtD s la then sizeAtD s la else 0
  | none => 0

/-- Model of the public `malloc`: reject size 0; adjust the size to cover
the header and the 16-byte alignment; on a fit, place there and hand out
the payload; on a miss, shrink the OS request by a free tail block's size
and extend the heap. -/
def malloc (s : MM) (size : Nat) : Option Nat × MM × List Event :=
  if size = 0 then (none, s, [])
  else
    let asize := round_up (size + 4)
    match find_fit s asize with
    | some a => (some (a + 4), place s a asize, [])
    | none =>
      match extend_heap s (asize - lastFreeSize s) with
      | (none, s1, ev) => (none, s1, ev)
      | (some a, s1, ev) => (some (a + 4), s1, ev)

/-- Model of the public `realloc`.  NULL pointer acts as `malloc`; size 0
acts as `free` returning NULL.  Otherwise `free_size` is this block's size
plus a free right neighbour's; with `free_size < asize` and the block at
the heap's end the heap is extended by exactly the shortfall and the block
rewritten at the full `asize` (the C `bt_make(block_ptr, asize, USED)`
clears the block's PREVFREE bit); with `free_size < asize` elsewhere a new
block is allocated, `free_size - 4` bytes are copied, and the old block
freed; with `free_size ≥ asize` the span is reused in place, split when
the remainder reaches `ALIGNMENT`.  The C locals `next_free`, `free_size`
and `change_last` (`block_ptr == last || (next == last && next_free)`) are
split out as named definitions. -/
def next_free (s : MM) (i : Nat) : Bool :=
  decide (i + 1 < s.blocks.length) && !(getBlk s (i + 1)).used

/-- The C local `free_size` of `realloc`: this block's size plus a free
right neighbour's. -/
def free_size (s : MM) (i : Nat) : Nat :=
  (getBlk s i).size + (if next_free s i then (getBlk s (i + 1)).size else 0)

/-- The C local `change_last` of `realloc` and `coalesce`: the block, or its
free successor, is the physically last block. -/
def change_last (s : MM) (i a : Nat) : Bool :=
  decide (s.last = some a)
    || (decide (s.last = some (a + (getBlk s i).size)) && next_free s i)

/-- Model of the public `realloc` (see the comment above `next_free`). -/
def reallocMM (s : MM) (p : Nat) (n : Nat) : Option Nat × MM × List Event :=
  if p = 0 then malloc s n
  else if n = 0 then (none, freeMM s p, [])
  else
    match idxOfAddr s (p - 4) with
    | none => (none, s, [])
    | some i =>
      let a := p - 4
      let b := getBlk s i
      let nf := next_free s i
      let fsz := free_size s i
      let asize := round_up (n + 4)
      let changeLast := change_last s i a
      if fsz < asize then
        if changeLast then
          match extend_heap s (asize - fsz) with
          | (none, s1, ev) => (none, s1, ev)
          | (some _, s1, ev) =>
            let blocks1 := s1.blocks.take i ++ [⟨asize, true, false⟩]
            (some p, { s1 with blocks := blocks1, epiPrevfree := false, last := some a }, ev)
        else
          match malloc s n with
          | (none, _, ev) => (none, s, ev)
          | (some q, s1, ev) =>
            (some q, freeMM s1 p, ev ++ [Event.memcpyEv (fsz - 4)])
      else
        let seg1 := if nf then segDelete s.seg (get_index (getBlk s (i + 1)).size)
          (a + b.size) else s.seg
        let dropCount := i + 1 + (if nf then 1 else 0)
        let pre := s.blocks.take i
        let rest := s.blocks.drop dropCount
        if 16 ≤ fsz - asize then
          let blocks1 := pre ++ [⟨asize, true, b.prevfree⟩, ⟨fsz - asize, false, false⟩]
            ++ setHeadPF true rest
          let epi1 := if rest.isEmpty then true else s.epiPrevfree
          let seg2 := segAppend seg1 (get_index (fsz - asize)) (a + asize)
          let last1 := if changeLast then some (a + asize) else s.last
          (some p,
            { s with blocks := blocks1, epiPrevfree := epi1, seg := seg2, last := last1 }, [])
        else
          let blocks1 := pre ++ [⟨fsz, true, b.prevfree⟩] ++ setHeadPF false rest
          let epi1 := if rest.isEmpty then false else s.epiPrevfree
          let last1 := if changeLast then some a else s.last
          (some p,
            { s with blocks := blocks1, epiPrevfree := epi1, seg := seg1, last := last1 }, [])

/-- Model of the public `calloc`: multiply (no overflow check, matching the
source), allocate, and on success zero the payload (recorded as a memset
event). -/
def callocMM (s : MM) (nmemb sz : Nat) : Option Nat × MM × List Event :=
  let bytes := nmemb * sz
  match malloc s bytes with
  | (none, s1, ev) => (none, s1, ev)
  | (some q, s1, ev) => (some q, s1, ev ++ [Event.memsetEv bytes])

/-- Model of `mm_init`: two sbrk calls (72 bytes of bucket array, 32 bytes
holding padding, the 20-byte prologue and the epilogue); on success the
heap holds no real blocks, all buckets are empty and `last` is NULL. -/
def initMM (base : Nat) (mem : Nat) : Option MM :=
  if mem < 72 then none
  else if mem - 72 < 32 then none
  else some
    { base := base, blocks := [], epiPrevfree := false,
      seg := List.replicate 9 [], last := none, mem := mem - 104 }

/-- Invariant I1: every block's size is a multiple of 16 and at least 16. -/
def sizesOk (s : MM) : Prop := ∀ b ∈ s.blocks, 16 ≤ b.size ∧ b.size % 16 = 0

/-- Walk for invariant I4; the accumulator says whether the physically
previous block (initially the allocated prologue) is free, and no block may
be free while its predecessor is. -/
def noAdjAux (pfree : Bool) : List Block → Bool
  | [] => true
  | b :: r => (!pfree || b.used) && noAdjAux (!b.used) r

/-- Invariant I4: no two physically adjacent blocks are both free. -/
def noAdjFree (s : MM) : Prop := noAdjAux false s.blocks = true

/-- Walk for invariant I3: each block's PREVFREE bit must equal the
accumulated freeness of its physical predecessor. -/
def pfOkAux (pfree : Bool) : List Block → Bool
  | [] => true
  | b :: r => (b.prevfree == pfree) && pfOkAux (!b.used) r

/-- Freeness of the last block of a run, `pfree` when the run is empty. -/
def lastFreeB (pfree : Bool) : List Block → Bool
  | [] => pfree
  | b :: r => lastFreeB (!b.used) r

/-- Invariant I3 including the epilogue: every real block's PREVFREE bit
matches its physical predecessor's freeness (the prologue, predecessor of
the first block, is allocated), and so does the epilogue header's. -/
def pfOk (s : MM) : Prop :=
  pfOkAux false s.blocks = true ∧ s.epiPrevfree = lastFreeB false s.blocks

/-- Bucket soundness (I5 one direction plus I6): every address on a bucket
list is the header address of a live free block whose size classifies into
exactly that bucket. -/
def segWF (s : MM) : Prop :=
  ∀ k < s.seg.length, ∀ a ∈ s.seg.getD k [],
    ∃ i < s.blocks.length,
      addrOf s i = a ∧ (getBlk s i).used = false ∧ get_index (getBlk s i).size = k

/-- Bucket completeness (I5 other direction): every free block is on the
bucket list its size classifies into. -/
def segCo (s : MM) : Prop :=
  ∀ i < s.blocks.length, (getBlk s i).used = false →
    addrOf s i ∈ s.seg.getD (get_index (getBlk s i).size) []

/-- Invariant I7: `last` is the physically last real block, NULL iff none. -/
def lastOk (s : MM) : Prop :=
  s.last = if s.blocks.isEmpty then none else some (addrOf s (s.blocks.length - 1))

/-- The spec's between-calls well-formedness package used as a hypothesis:
I1, I3, I4, both bucket directions, I7, and the nine-bucket shape. -/
def WF (s : MM) : Prop :=
  sizesOk s ∧ pfOk s ∧ noAdjFree s ∧ segWF s ∧ segCo s ∧ lastOk s ∧ s.seg.length = 9

example : (initMM 0 10000).map (fun s => (malloc s 28).1) = some (some 96) := by decide
example :
    (initMM 0 10000).map (fun s =>
      let s1 := (malloc s 28).2.1
      let s2 := (malloc s1 12).2.1
      let s3 := freeMM s2 96
      (s3.blocks, s3.seg, s3.last)) =
    some ([⟨32, false, false⟩, ⟨16, true, true⟩],
      [[], [92], [], [], [], [], [], [], []], some 124) := by decide

instance (s : MM) : Decidable (sizesOk s) := by unfold sizesOk; infer_instance

instance (s : MM) : Decidable (noAdjFree s) := by unfold noAdjFree; infer_instance

instance (s : MM) : Decidable (pfOk s) := by unfold pfOk; infer_instance

instance (s : MM) : Decidable (segWF s) := by unfold segWF; infer_instance

instance (s : MM) : Decidable (segCo s) := by unfold segCo; infer_instance

instance (s : MM) : Decidable (lastOk s) := by unfold lastOk; infer_instance

instance (s : MM) : Decidable (WF s) := by unfold WF; infer_instance

theorem round_up_mod16 (n : Nat) : round_up n % 16 = 0 := by
  unfold round_up; omega

theorem le_round_up (n : Nat) : n ≤ round_up n := by
  unfold round_up; omega

theorem round_up_lt_add (n : Nat) : round_up n < n + 16 := by
  unfold round_up; omega

theorem round_up_ge_16 (n : Nat) (h : 1 ≤ n) : 16 ≤ round_up n := by
  unfold round_up; omega

theorem get_index_lt_nine (n : Nat) : get_index n < 9 := by
  unfold get_index; split_ifs <;> omega

theorem get_index_mono_of_align (a b : Nat) (ha : a % 16 = 0) (hb : b % 16 = 0)
    (ha16 : 16 ≤ a) (hab : a ≤ b) : get_index a ≤ get_index b := by
  unfold get_index; split_ifs <;> omega

theorem sumSizes_nil : sumSizes [] = 0 := rfl

theorem sumSizes_cons (b : Block) (l : List Block) :
    sumSizes (b :: l) = b.size + sumSizes l := by
  simp [sumSizes]

theorem sumSizes_append (l r : List Block) :
    sumSizes (l ++ r) = sumSizes l + sumSizes r := by
  simp [sumSizes]

theorem setHeadPF_length (v : Bool) (l : List Block) :
    (setHeadPF v l).length = l.length := by
  cases l <;> simp [setHeadPF]

theorem setHeadPF_sizes (v : Bool) (l : List Block) :
    (setHeadPF v l).map Block.size = l.map Block.size := by
  cases l <;> simp [setHeadPF]

theorem sumSizes_setHeadPF (v : Bool) (l : List Block) :
    sumSizes (setHeadPF v l) = sumSizes l := by
  unfold sumSizes; rw [setHeadPF_sizes]

theorem noAdjAux_append (pf : Bool) (l r : List Block) :
    noAdjAux pf (l ++ r) = (noAdjAux pf l && noAdjAux (lastFreeB pf l) r) := by
  induction l generalizing pf with
  | nil => simp [noAdjAux, lastFreeB]
  | cons b t ih => simp [noAdjAux, lastFreeB, ih, Bool.and_assoc]

theorem pfOkAux_append (pf : Bool) (l r : List Block) :
    pfOkAux pf (l ++ r) = (pfOkAux pf l && pfOkAux (lastFreeB pf l) r) := by
  induction l generalizing pf with
  | nil => simp [pfOkAux, lastFreeB]
  | cons b t ih => simp [pfOkAux, lastFreeB, ih, Bool.and_assoc]

theorem lastFreeB_append (pf : Bool) (l r : List Block) :
    lastFreeB pf (l ++ r) = lastFreeB (lastFreeB pf l) r := by
  induction l generalizing pf with
  | nil => simp [lastFreeB]
  | cons b t ih => simp [lastFreeB, ih]

theorem noAdjAux_setHeadPF (pf v : Bool) (l : List Block) :
    noAdjAux pf (setHeadPF v l) = noAdjAux pf l := by
  cases l <;> simp [setHeadPF, noAdjAux]

theorem lastFreeB_setHeadPF (pf v : Bool) (l : List Block) :
    lastFreeB pf (setHeadPF v l) = lastFreeB pf l := by
  cases l <;> simp [setHeadPF, lastFreeB]

theorem pfOkAux_setHeadPF (v : Bool) (l : List Block) :
    pfOkAux v (setHeadPF v l) =
      (match l with | [] => true | b :: r => pfOkAux (!b.used) r) := by
  cases l <;> simp [setHeadPF, pfOkAux]

theorem lastFreeB_singleton (pf : Bool) (b : Block) :
    lastFreeB pf [b] = !b.used := rfl

theorem noAdjAux_singleton (pf : Bool) (b : Block) :
    noAdjAux pf [b] = (!pf || b.used) := by
  simp [noAdjAux]

theorem pfOkAux_singleton (pf : Bool) (b : Block) :
    pfOkAux pf [b] = (b.prevfree == pf) := by
  simp [pfOkAux]

theorem idxOfAddrAux_of_take (l : List Block) (hpos : ∀ b ∈ l, 0 < b.size) (c i : Nat)
    (hi : i < l.length) : idxOfAddrAux l c (c + sumSizes (l.take i)) = some i := by
  induction l generalizing c i with
  | nil => simp at hi
  | cons b r ih =>
    cases i with
    | zero => simp [idxOfAddrAux, sumSizes]
    | succ n =>
      have hb : 0 < b.size := hpos b (by simp)
      have hrec := ih (fun x hx => hpos x (by simp [hx])) (c + b.size) n (by simpa using hi)
      rw [idxOfAddrAux]
      have hne : c + sumSizes ((b :: r).take (n + 1)) ≠ c := by
        simp only [List.take_succ_cons, sumSizes_cons]; omega
      rw [if_neg hne]
      have harr : c + sumSizes ((b :: r).take (n + 1)) =
          c + b.size + sumSizes (r.take n) := by
        simp only [List.take_succ_cons, sumSizes_cons]; omega
      rw [harr, hrec]
      rfl

theorem idxOfAddrAux_sound {l : List Block} {c t i : Nat}
    (h : idxOfAddrAux l c t = some i) : i < l.length ∧ t = c + sumSizes (l.take i) := by
  induction l generalizing c i with
  | nil => simp [idxOfAddrAux] at h
  | cons b r ih =>
    rw [idxOfAddrAux] at h
    by_cases hc : t = c
    · rw [if_pos hc] at h
      injection h with h0
      subst h0
      simp [hc, sumSizes]
    · rw [if_neg hc] at h
      match i, h with
      | Nat.succ j, h =>
        have hx : idxOfAddrAux r (c + b.size) t = some j := by
          cases hy : idxOfAddrAux r (c + b.size) t with
          | none => rw [hy] at h; simp at h
          | some m =>
            rw [hy] at h
            simp only [Option.map_some'] at h
            injection h with h2
            exact congrArg some (by omega)
        have := ih hx
        refine ⟨by simpa using this.1, ?_⟩
        simp only [List.take_succ_cons, sumSizes_cons]
        omega
      | Nat.zero, h =>
        exfalso
        cases hy : idxOfAddrAux r (c + b.size) t with
        | none => rw [hy] at h; simp at h
        | some m => rw [hy] at h; simp at h

theorem idxOfAddr_addrOf (s : MM) (hpos : ∀ b ∈ s.blocks, 0 < b.size) (i : Nat)
    (hi : i < s.blocks.length) : idxOfAddr s (addrOf s i) = some i :=
  idxOfAddrAux_of_take s.blocks hpos (heapStart s) i hi

theorem idxOfAddr_sound {s : MM} {a i : Nat} (h : idxOfAddr s a = some i) :
    i < s.blocks.length ∧ a = addrOf s i := by
  have := idxOfAddrAux_sound h
  exact ⟨this.1, this.2⟩

theorem getBlk_eq_getElem (s : MM) (i : Nat) (h : i < s.blocks.length) :
    getBlk s i = s.blocks[i] :=
  List.getD_eq_getElem s.blocks dBlk h

theorem getBlk_of_ge (s : MM) (i : Nat) (h : s.blocks.length ≤ i) : getBlk s i = dBlk := by
  unfold getBlk
  simp [List.getD_eq_getElem?_getD, List.getElem?_eq_none h]

theorem drop_decomp (s : MM) (i : Nat) (h : i < s.blocks.length) :
    s.blocks.drop i = getBlk s i :: s.blocks.drop (i + 1) := by
  rw [getBlk_eq_getElem s i h]
  exact List.drop_eq_getElem_cons h

theorem blocks_decomp (s : MM) (i : Nat) (h : i < s.blocks.length) :
    s.blocks = s.blocks.take i ++ getBlk s i :: s.blocks.drop (i + 1) := by
  conv_lhs => rw [← List.take_append_drop i s.blocks]
  rw [drop_decomp s i h]

theorem take_succ_decomp (s : MM) (i : Nat) (h : i < s.blocks.length) :
    s.blocks.take (i + 1) = s.blocks.take i ++ [getBlk s i] := by
  rw [List.take_succ, List.getElem?_eq_getElem h, getBlk_eq_getElem s i h]
  rfl

theorem addrOf_zero (s : MM) : addrOf s 0 = heapStart s := by
  simp [addrOf, sumSizes]

theorem addrOf_succ (s : MM) (i : Nat) (h : i < s.blocks.length) :
    addrOf s (i + 1) = addrOf s i + (getBlk s i).size := by
  unfold addrOf
  rw [take_succ_decomp s i h, sumSizes_append]
  simp [sumSizes]
  omega

theorem heapEnd_eq (s : MM) : heapEnd s = heapStart s + sumSizes s.blocks := rfl

theorem addrOf_le_heapEnd (s : MM) (i : Nat) (h : i ≤ s.blocks.length) :
    addrOf s i + sumSizes (s.blocks.drop i) = heapEnd s := by
  unfold addrOf heapEnd
  have := List.take_append_drop i s.blocks
  have h2 : sumSizes (s.blocks.take i) + sumSizes (s.blocks.drop i) = sumSizes s.blocks := by
    rw [← sumSizes_append, this]
  omega

theorem sumSizes_mod16 (l : List Block) (h : ∀ b ∈ l, 16 ≤ b.size ∧ b.size % 16 = 0) :
    sumSizes l % 16 = 0 := by
  induction l with
  | nil => simp [sumSizes]
  | cons b t ih =>
    rw [sumSizes_cons]
    have hb := h b (by simp)
    have ht := ih (fun x hx => h x (by simp [hx]))
    omega

theorem addrOf_mod16 (s : MM) (hsz : sizesOk s) (i : Nat) :
    addrOf s i % 16 = (s.base + 12) % 16 := by
  unfold addrOf heapStart
  have : sumSizes (s.blocks.take i) % 16 = 0 :=
    sumSizes_mod16 _ (fun b hb => hsz b (List.mem_of_mem_take hb))
  omega

theorem sizesOk_pos (s : MM) (hsz : sizesOk s) : ∀ b ∈ s.blocks, 0 < b.size :=
  fun b hb => by have := hsz b hb; omega

theorem scanBucket_ne_none (s : MM) (asize : Nat) (l : List Nat) :
    ∀ b : Nat, scanBucket s asize (some b) l ≠ none := by
  induction l with
  | nil => intro b h; simp [scanBucket] at h
  | cons p rest ih =>
    intro b
    rw [scanBucket]
    split_ifs with h1
    · exact ih p
    · exact ih b

theorem scanBucket_none_iff (s : MM) (asize : Nat) (l : List Nat) :
    scanBucket s asize none l = none ↔ ∀ p ∈ l, sizeAtD s p < asize := by
  induction l with
  | nil => simp [scanBucket]
  | cons p rest ih =>
    rw [scanBucket]
    split_ifs with h1
    · constructor
      · intro h; exact absurd h (scanBucket_ne_none s asize rest p)
      · intro h; exact absurd h1 (by simpa using (h p (by simp)).not_le)
    · simp only [List.mem_cons]
      constructor
      · intro h
        intro q hq
        rcases hq with hq | hq
        · subst hq; omega
        · exact ih.1 h q hq
      · intro h
        exact ih.2 (fun q hq => h q (Or.inr hq))

theorem scanBucket_some_spec (s : MM) (asize : Nat) (l : List Nat) :
    ∀ (best : Option Nat) (a : Nat),
      (∀ b, best = some b → asize ≤ sizeAtD s b) →
      scanBucket s asize best l = some a →
      (a ∈ l ∨ best = some a) ∧ asize ≤ sizeAtD s a ∧
        (∀ p ∈ l, asize ≤ sizeAtD s p → sizeAtD s a ≤ sizeAtD s p) ∧
        (∀ b, best = some b → sizeAtD s a ≤ sizeAtD s b) := by
  induction l with
  | nil =>
    intro best a hbest h
    simp [scanBucket] at h
    subst h
    exact ⟨Or.inr rfl, hbest a rfl, by simp, fun b hb => by rw [Option.some_inj] at hb; subst hb; omega⟩
  | cons p rest ih =>
    intro best a hbest h
    match best with
    | none =>
      rw [scanBucket] at h
      split_ifs at h with h1
      · obtain ⟨hmem, hfit, hmin, hacc⟩ :=
          ih (some p) a (fun b hb => by rw [Option.some_inj] at hb; subst hb; omega) h
        refine ⟨?_, hfit, ?_, by simp⟩
        · rcases hmem with hm | hm
          · exact Or.inl (by simp [hm])
          · rw [Option.some_inj] at hm; exact Or.inl (by simp [hm])
        · intro q hq hfq
          rcases List.mem_cons.1 hq with hq1 | hq1
          · subst hq1; exact hacc q rfl
          · exact hmin q hq1 hfq
      · obtain ⟨hmem, hfit, hmin, _⟩ := ih none a (by simp) h
        refine ⟨?_, hfit, ?_, by simp⟩
        · rcases hmem with hm | hm
          · exact Or.inl (by simp [hm])
          · simp at hm
        · intro q hq hfq
          rcases List.mem_cons.1 hq with hq1 | hq1
          · subst hq1; omega
          · exact hmin q hq1 hfq
    | some b0 =>
      have hb0 : asize ≤ sizeAtD s b0 := hbest b0 rfl
      rw [scanBucket] at h
      split_ifs at h with h1
      · obtain ⟨hmem, hfit, hmin, hacc⟩ :=
          ih (some p) a (fun b hb => by rw [Option.some_inj] at hb; subst hb; omega) h
        have hap : sizeAtD s a ≤ sizeAtD s p := hacc p rfl
        refine ⟨?_, hfit, ?_, ?_⟩
        · rcases hmem with hm | hm
          · exact Or.inl (by simp [hm])
          · rw [Option.some_inj] at hm; exact Or.inl (by simp [hm])
        · intro q hq hfq
          rcases List.mem_cons.1 hq with hq1 | hq1
          · subst hq1; exact hap
          · exact hmin q hq1 hfq
        · intro b hb
          rw [Option.some_inj] at hb
          subst hb
          omega
      · obtain ⟨hmem, hfit, hmin, hacc⟩ :=
          ih (some b0) a (fun b hb => by rw [Option.some_inj] at hb; subst hb; omega) h
        have hab : sizeAtD s a ≤ sizeAtD s b0 := hacc b0 rfl
        refine ⟨?_, hfit, ?_, ?_⟩
        · rcases hmem with hm | hm
          · exact Or.inl (by simp [hm])
          · exact Or.inr hm
        · intro q hq hfq
          rcases List.mem_cons.1 hq with hq1 | hq1
          · subst hq1
            have : sizeAtD s b0 ≤ sizeAtD s q := by
              by_contra hcon
              push_neg at hcon
              exact h1 ⟨hfq, hcon⟩
            omega
          · exact hmin q hq1 hfq
        · intro b hb
          rw [Option.some_inj] at hb
          subst hb
          exact hab

theorem findFitAux_none_iff (s : MM) (asize : Nat) (L : List (List Nat)) :
    findFitAux s asize L = none ↔ ∀ bk ∈ L, ∀ p ∈ bk, sizeAtD s p < asize := by
  induction L with
  | nil => simp [findFitAux]
  | cons bk rest ih =>
    rw [findFitAux]
    cases hscan : scanBucket s asize none bk with
    | some b =>
      simp only [List.mem_cons]
      constructor
      · intro h; simp at h
      · intro h
        exfalso
        obtain ⟨hmem, hfit, _, _⟩ := scanBucket_some_spec s asize bk none b (by simp) hscan
        rcases hmem with hm | hm
        · exact absurd hfit (by simpa using (h bk (Or.inl rfl) b hm).not_le)
        · simp at hm
    | none =>
      have hbk := (scanBucket_none_iff s asize bk).1 hscan
      simp only [List.mem_cons]
      rw [ih]
      constructor
      · intro h q hq
        rcases hq with hq | hq
        · subst hq; exact hbk
        · exact h q hq
      · intro h q hq
        exact h q (Or.inr hq)

theorem findFitAux_some_spec (s : MM) (asize : Nat) (L : List (List Nat)) (a : Nat)
    (h : findFitAux s asize L = some a) :
    ∃ m, m < L.length ∧ (∀ n < m, ∀ p ∈ L.getD n [], sizeAtD s p < asize) ∧
      a ∈ L.getD m [] ∧ asize ≤ sizeAtD s a ∧
      (∀ p ∈ L.getD m [], asize ≤ sizeAtD s p → sizeAtD s a ≤ sizeAtD s p) := by
  induction L with
  | nil => simp [findFitAux] at h
  | cons bk rest ih =>
    rw [findFitAux] at h
    cases hscan : scanBucket s asize none bk with
    | some b =>
      rw [hscan] at h
      rw [Option.some_inj] at h
      subst h
      obtain ⟨hmem, hfit, hmin, _⟩ := scanBucket_some_spec s asize bk none b (by simp) hscan
      refine ⟨0, by simp, by omega, ?_, hfit, ?_⟩
      · rcases hmem with hm | hm
        · exact hm
        · simp at hm
      · intro p hp hfp
        exact hmin p hp hfp
    | none =>
      rw [hscan] at h
      obtain ⟨m, hm, hlow, hmem, hfit, hmin⟩ := ih h
      refine ⟨m + 1, by simpa using hm, ?_, by simpa using hmem, hfit, by simpa using hmin⟩
      intro n hn p hp
      cases n with
      | zero =>
        exact (scanBucket_none_iff s asize bk).1 hscan p (by simpa using hp)
      | succ k =>
        exact hlow k (by omega) p (by simpa using hp)

theorem seg_drop_getD (s : MM) (k0 n : Nat) :
    (s.seg.drop k0).getD n [] = s.seg.getD (k0 + n) [] := by
  rw [List.getD_eq_getElem?_getD, List.getD_eq_getElem?_getD, List.getElem?_drop]

theorem find_fit_none_iff_buckets (s : MM) (asize : Nat) :
    find_fit s asize = none ↔
      ∀ k, get_index asize ≤ k → k < s.seg.length → ∀ p ∈ bucketAt s k, sizeAtD s p < asize := by
  unfold find_fit bucketAt
  rw [findFitAux_none_iff]
  constructor
  · intro h k hk1 hk2 p hp
    have : s.seg.getD k [] = (s.seg.drop (get_index asize)).getD (k - get_index asize) [] := by
      rw [seg_drop_getD]
      congr 1
      omega
    have hmem : (s.seg.drop (get_index asize)).getD (k - get_index asize) []
        ∈ s.seg.drop (get_index asize) := by
      have hlen : k - get_index asize < (s.seg.drop (get_index asize)).length := by
        simp [List.length_drop]
        omega
      rw [List.getD_eq_getElem _ _ hlen]
      exact List.getElem_mem hlen
    rw [this] at hp
    exact h _ hmem p hp
  · intro h bk hbk p hp
    obtain ⟨n, hn, hbk2⟩ := List.mem_iff_getElem.1 hbk
    have : bk = (s.seg.drop (get_index asize)).getD n [] := by
      rw [List.getD_eq_getElem _ _ hn, hbk2]
    rw [seg_drop_getD] at this
    subst this
    have hlen : get_index asize + n < s.seg.length := by
      simp [List.length_drop] at hn
      omega
    exact h (get_index asize + n) (by omega) hlen p hp

theorem find_fit_some_spec (s : MM) (asize a : Nat) (h : find_fit s asize = some a) :
    ∃ k, get_index asize ≤ k ∧ k < s.seg.length ∧ a ∈ bucketAt s k ∧
      asize ≤ sizeAtD s a ∧
      (∀ p ∈ bucketAt s k, asize ≤ sizeAtD s p → sizeAtD s a ≤ sizeAtD s p) ∧
      (∀ k', get_index asize ≤ k' → k' < k → ∀ p ∈ bucketAt s k', sizeAtD s p < asize) := by
  unfold find_fit at h
  obtain ⟨m, hm, hlow, hmem, hfit, hmin⟩ := findFitAux_some_spec s asize _ a h
  rw [seg_drop_getD] at hmem hmin
  refine ⟨get_index asize + m, by omega, ?_, hmem, hfit, hmin, ?_⟩
  · simp [List.length_drop] at hm
    omega
  · intro k' hk1 hk2 p hp
    have := hlow (k' - get_index asize) (by omega) p
    rw [seg_drop_getD] at this
    have heq : get_index asize + (k' - get_index asize) = k' := by omega
    rw [heq] at this
    exact this hp

theorem getBlk_mem (s : MM) (i : Nat) (hi : i < s.blocks.length) : getBlk s i ∈ s.blocks := by
  rw [getBlk_eq_getElem s i hi]
  exact List.getElem_mem hi

theorem sizeAtD_addrOf (s : MM) (hsz : sizesOk s) (i : Nat) (hi : i < s.blocks.length) :
    sizeAtD s (addrOf s i) = (getBlk s i).size := by
  unfold sizeAtD
  rw [idxOfAddr_addrOf s (sizesOk_pos s hsz) i hi]

theorem freeAtD_addrOf (s : MM) (hsz : sizesOk s) (i : Nat) (hi : i < s.blocks.length) :
    freeAtD s (addrOf s i) = !(getBlk s i).used := by
  unfold freeAtD
  rw [idxOfAddr_addrOf s (sizesOk_pos s hsz) i hi]

theorem low_bucket_no_fit (s : MM) (asize : Nat) (hseg : segWF s) (hsz : sizesOk s)
    (h16 : asize % 16 = 0) (hge : 16 ≤ asize) (k : Nat) (hk : k < get_index asize)
    (hk9 : k < s.seg.length) : ∀ p ∈ bucketAt s k, sizeAtD s p < asize := by
  intro p hp
  obtain ⟨i, hi, ha, hfree, hidx⟩ := hseg k hk9 p hp
  have hsp : sizeAtD s p = (getBlk s i).size := by
    rw [← ha, sizeAtD_addrOf s hsz i hi]
  by_contra hcon
  push_neg at hcon
  have hblk := hsz _ (getBlk_mem s i hi)
  have := get_index_mono_of_align asize (getBlk s i).size h16 hblk.2 hge (by omega)
  omega

theorem find_fit_none_sizes (s : MM) (asize : Nat) (hseg : segWF s) (hco : segCo s)
    (hsz : sizesOk s) (h16 : asize % 16 = 0) (hge : 16 ≤ asize)
    (hnone : find_fit s asize = none) :
    ∀ i < s.blocks.length, (getBlk s i).used = false → (getBlk s i).size < asize := by
  intro i hi hfree
  have hmem := hco i hi hfree
  have hk9 : get_index (getBlk s i).size < 9 := get_index_lt_nine _
  have hblk := hsz _ (getBlk_mem s i hi)
  by_cases hcase : get_index asize ≤ get_index (getBlk s i).size
  · by_cases hlen : get_index (getBlk s i).size < s.seg.length
    · have := (find_fit_none_iff_buckets s asize).1 hnone _ hcase hlen _ hmem
      rwa [sizeAtD_addrOf s hsz i hi] at this
    · exfalso
      unfold bucketAt at hmem
      rw [List.getD_eq_getElem?_getD, List.getElem?_eq_none (by omega)] at hmem
      simp at hmem
  · by_contra hcon
    push_neg at hcon
    have := get_index_mono_of_align asize (getBlk s i).size h16 hblk.2 hge hcon
    omega

theorem place_split_eq (s : MM) (a asize i : Nat) (hidx : idxOfAddr s a = some i)
    (hsplit : 16 ≤ (getBlk s i).size - asize) :
    place s a asize = { s with
      blocks := s.blocks.take i ++ [⟨asize, true, (getBlk s i).prevfree⟩,
        ⟨(getBlk s i).size - asize, false, false⟩] ++ setHeadPF true (s.blocks.drop (i + 1)),
      epiPrevfree := if (s.blocks.drop (i + 1)).isEmpty then true else s.epiPrevfree,
      seg := segAppend (segDelete s.seg (get_index (getBlk s i).size) a)
        (get_index ((getBlk s i).size - asize)) (a + asize),
      last := if lastLt s.last (a + asize) then some (a + asize) else s.last } := by
  unfold place
  rw [hidx]
  simp only [if_pos hsplit]

theorem place_nosplit_eq (s : MM) (a asize i : Nat) (hidx : idxOfAddr s a = some i)
    (hsplit : ¬ 16 ≤ (getBlk s i).size - asize) :
    place s a asize = { s with
      blocks := s.blocks.take i ++ [⟨(getBlk s i).size, true, (getBlk s i).prevfree⟩]
        ++ setHeadPF false (s.blocks.drop (i + 1)),
      epiPrevfree := if (s.blocks.drop (i + 1)).isEmpty then false else s.epiPrevfree,
      seg := segDelete s.seg (get_index (getBlk s i).size) a } := by
  unfold place
  rw [hidx]
  simp only [if_neg hsplit]

theorem pfOkAux_setHeadPF_of (v w : Bool) (rest : List Block)
    (h : pfOkAux w rest = true) : pfOkAux v (setHeadPF v rest) = true := by
  cases rest with
  | nil => rfl
  | cons c r =>
    simp [setHeadPF, pfOkAux] at h ⊢
    exact h.2

theorem sizesOk_setHeadPF (v : Bool) (l : List Block)
    (h : ∀ b ∈ l, 16 ≤ b.size ∧ b.size % 16 = 0) :
    ∀ b ∈ setHeadPF v l, 16 ≤ b.size ∧ b.size % 16 = 0 := by
  cases l with
  | nil => simp [setHeadPF]
  | cons c r =>
    intro b hb
    rcases List.mem_cons.1 hb with hb1 | hb1
    · subst hb1
      exact h c (by simp)
    · exact h b (by simp [hb1])

theorem invariant_decomp (s : MM) (i : Nat) (hi : i < s.blocks.length)
    (hpf : pfOk s) (hadj : noAdjFree s) :
    pfOkAux false (s.blocks.take i) = true ∧
    ((getBlk s i).prevfree = lastFreeB false (s.blocks.take i)) ∧
    pfOkAux (!(getBlk s i).used) (s.blocks.drop (i + 1)) = true ∧
    noAdjAux false (s.blocks.take i) = true ∧
    (lastFreeB false (s.blocks.take i) = false ∨ (getBlk s i).used = true) ∧
    noAdjAux (!(getBlk s i).used) (s.blocks.drop (i + 1)) = true ∧
    s.epiPrevfree = lastFreeB (!(getBlk s i).used) (s.blocks.drop (i + 1)) := by
  obtain ⟨hpf1, hpf2⟩ := hpf
  have hdec := blocks_decomp s i hi
  rw [hdec, pfOkAux_append, Bool.and_eq_true, pfOkAux, Bool.and_eq_true, beq_iff_eq] at hpf1
  have hadj1 := hadj
  unfold noAdjFree at hadj1
  rw [hdec, noAdjAux_append, Bool.and_eq_true, noAdjAux, Bool.and_eq_true,
    Bool.or_eq_true, Bool.not_eq_eq_eq_not] at hadj1
  rw [hdec, lastFreeB_append, lastFreeB] at hpf2
  refine ⟨hpf1.1, hpf1.2.1, hpf1.2.2, hadj1.1, ?_, hadj1.2.2, hpf2⟩
  rcases hadj1.2.1 with hc | hc
  · left; simpa using hc
  · right; exact hc

theorem noAdjAux_mono (l : List Block) (h : noAdjAux true l = true) :
    noAdjAux false l = true := by
  cases l with
  | nil => rfl
  | cons c r =>
    simp [noAdjAux] at h ⊢
    exact h.2

theorem pfOk_S1 (pre rest : List Block) (u f : Nat) (pfA : Bool)
    (hpre : pfOkAux false pre = true)
    (hpfA : pfA = lastFreeB false pre)
    (hrest : pfOkAux true rest = true) :
    pfOkAux false (pre ++ [⟨u, true, pfA⟩, ⟨f, false, false⟩]
      ++ setHeadPF true rest) = true := by
  simp only [pfOkAux_append, Bool.and_eq_true]
  refine ⟨⟨hpre, by simp [pfOkAux, hpfA]⟩, ?_⟩
  have hlf : lastFreeB (lastFreeB false pre) [⟨u, true, pfA⟩, ⟨f, false, false⟩] = true := by
    simp [lastFreeB]
  rw [lastFreeB_append, hlf]
  exact pfOkAux_setHeadPF_of true true rest hrest

theorem adj_S1 (pre rest : List Block) (u f : Nat) (pfA : Bool)
    (hpre : noAdjAux false pre = true)
    (hrest : noAdjAux true rest = true) :
    noAdjAux false (pre ++ [⟨u, true, pfA⟩, ⟨f, false, false⟩]
      ++ setHeadPF true rest) = true := by
  simp only [noAdjAux_append, Bool.and_eq_true]
  refine ⟨⟨hpre, by simp [noAdjAux]⟩, ?_⟩
  have hlf : lastFreeB (lastFreeB false pre) [⟨u, true, pfA⟩, ⟨f, false, false⟩] = true := by
    simp [lastFreeB]
  rw [lastFreeB_append, hlf, noAdjAux_setHeadPF]
  exact hrest

theorem epi_S1 (pre rest : List Block) (u f : Nat) (pfA epiOld : Bool)
    (hepi : epiOld = lastFreeB true rest) :
    (if rest.isEmpty then true else epiOld) =
      lastFreeB false (pre ++ [⟨u, true, pfA⟩, ⟨f, false, false⟩]
        ++ setHeadPF true rest) := by
  rw [lastFreeB_append, lastFreeB_append, lastFreeB_setHeadPF]
  cases rest with
  | nil => simp [lastFreeB]
  | cons c r =>
    simp only [List.isEmpty_cons, if_neg Bool.false_ne_true]
    rw [hepi]
    simp [lastFreeB]

theorem pfOk_S2 (pre rest : List Block) (u : Nat) (pfA w : Bool)
    (hpre : pfOkAux false pre = true)
    (hpfA : pfA = lastFreeB false pre)
    (hrest : pfOkAux w rest = true) :
    pfOkAux false (pre ++ [⟨u, true, pfA⟩] ++ setHeadPF false rest) = true := by
  simp only [pfOkAux_append, Bool.and_eq_true]
  refine ⟨⟨hpre, by simp [pfOkAux, hpfA]⟩, ?_⟩
  have hlf : lastFreeB (lastFreeB false pre) [⟨u, true, pfA⟩] = false := by
    simp [lastFreeB]
  rw [lastFreeB_append, hlf]
  exact pfOkAux_setHeadPF_of false w rest hrest

theorem adj_S2 (pre rest : List Block) (u : Nat) (pfA : Bool)
    (hpre : noAdjAux false pre = true)
    (hrest : noAdjAux false rest = true) :
    noAdjAux false (pre ++ [⟨u, true, pfA⟩] ++ setHeadPF false rest) = true := by
  simp only [noAdjAux_append, Bool.and_eq_true]
  refine ⟨⟨hpre, by simp [noAdjAux]⟩, ?_⟩
  have hlf : lastFreeB (lastFreeB false pre) [⟨u, true, pfA⟩] = false := by
    simp [lastFreeB]
  rw [lastFreeB_append, hlf, noAdjAux_setHeadPF]
  exact hrest

theorem epi_S2 (pre rest : List Block) (u : Nat) (pfA epiOld w : Bool)
    (hepi : epiOld = lastFreeB w rest) :
    (if rest.isEmpty then false else epiOld) =
      lastFreeB false (pre ++ [⟨u, true, pfA⟩] ++ setHeadPF false rest) := by
  rw [lastFreeB_append, lastFreeB_append, lastFreeB_setHeadPF]
  cases rest with
  | nil => simp [lastFreeB]
  | cons c r =>
    simp only [List.isEmpty_cons, if_neg Bool.false_ne_true]
    rw [hepi]
    simp [lastFreeB]

theorem pfOk_S3 (pre rest : List Block) (f : Nat) (pfF w : Bool)
    (hpre : pfOkAux false pre = true)
    (hpfF : pfF = lastFreeB false pre)
    (hrest : pfOkAux w rest = true) :
    pfOkAux false (pre ++ [⟨f, false, pfF⟩] ++ setHeadPF true rest) = true := by
  simp only [pfOkAux_append, Bool.and_eq_true]
  refine ⟨⟨hpre, by simp [pfOkAux, hpfF]⟩, ?_⟩
  have hlf : lastFreeB (lastFreeB false pre) [⟨f, false, pfF⟩] = true := by
    simp [lastFreeB]
  rw [lastFreeB_append, hlf]
  exact pfOkAux_setHeadPF_of true w rest hrest

theorem adj_S3 (pre rest : List Block) (f : Nat) (pfF : Bool)
    (hpre : noAdjAux false pre = true)
    (hleft : lastFreeB false pre = false)
    (hrest : noAdjAux true rest = true) :
    noAdjAux false (pre ++ [⟨f, false, pfF⟩] ++ setHeadPF true rest) = true := by
  simp only [noAdjAux_append, Bool.and_eq_true]
  refine ⟨⟨hpre, by simp [noAdjAux, hleft]⟩, ?_⟩
  have hlf : lastFreeB (lastFreeB false pre) [⟨f, false, pfF⟩] = true := by
    simp [lastFreeB]
  rw [lastFreeB_append, hlf, noAdjAux_setHeadPF]
  exact hrest

theorem epi_S3 (pre rest : List Block) (f : Nat) (pfF epiOld w : Bool)
    (hepi : epiOld = lastFreeB w rest) :
    (if rest.isEmpty then true else epiOld) =
      lastFreeB false (pre ++ [⟨f, false, pfF⟩] ++ setHeadPF true rest) := by
  rw [lastFreeB_append, lastFreeB_append, lastFreeB_setHeadPF]
  cases rest with
  | nil => simp [lastFreeB]
  | cons c r =>
    simp only [List.isEmpty_cons, if_neg Bool.false_ne_true]
    rw [hepi]
    simp [lastFreeB]

theorem pfOk_S4 (pre : List Block) (u : Nat) (pfA : Bool)
    (hpre : pfOkAux false pre = true)
    (hpfA : pfA = lastFreeB false pre) :
    pfOkAux false (pre ++ [⟨u, true, pfA⟩]) = true := by
  simp only [pfOkAux_append, Bool.and_eq_true]
  exact ⟨hpre, by simp [pfOkAux, hpfA]⟩

theorem adj_S4 (pre : List Block) (u : Nat) (pfA : Bool)
    (hpre : noAdjAux false pre = true) :
    noAdjAux false (pre ++ [⟨u, true, pfA⟩]) = true := by
  simp only [noAdjAux_append, Bool.and_eq_true]
  exact ⟨hpre, by simp [noAdjAux]⟩

theorem epi_S4 (pre : List Block) (u : Nat) (pfA : Bool) :
    false = lastFreeB false (pre ++ [⟨u, true, pfA⟩]) := by
  rw [lastFreeB_append]
  simp [lastFreeB]

theorem sizesOk_take (s : MM) (hsz : sizesOk s) (i : Nat) :
    ∀ b ∈ s.blocks.take i, 16 ≤ b.size ∧ b.size % 16 = 0 :=
  fun b hb => hsz b (List.mem_of_mem_take hb)

theorem sizesOk_drop (s : MM) (hsz : sizesOk s) (i : Nat) :
    ∀ b ∈ s.blocks.drop i, 16 ≤ b.size ∧ b.size % 16 = 0 :=
  fun b hb => hsz b (List.mem_of_mem_drop hb)

theorem place_post (s : MM) (a asize i : Nat)
    (hidx : idxOfAddr s a = some i)
    (hfree : (getBlk s i).used = false)
    (hle : asize ≤ (getBlk s i).size)
    (ha16 : asize % 16 = 0) (hage : 16 ≤ asize)
    (hsz : sizesOk s) (hpf : pfOk s) (hadj : noAdjFree s) :
    sizesOk (place s a asize) ∧ pfOk (place s a asize) ∧ noAdjFree (place s a asize) := by
  have hi : i < s.blocks.length := (idxOfAddr_sound hidx).1
  obtain ⟨hP1, hP2, hP3, hA1, hA2, hA3, hE⟩ := invariant_decomp s i hi hpf hadj
  have hbsz := hsz _ (getBlk_mem s i hi)
  rw [hfree] at hP3 hA3 hE
  simp only [Bool.not_false] at hP3 hA3 hE
  by_cases hsplit : 16 ≤ (getBlk s i).size - asize
  · rw [place_split_eq s a asize i hidx hsplit]
    refine ⟨?_, ⟨?_, ?_⟩, ?_⟩
    · intro b hb
      simp only [List.append_assoc, List.mem_append, List.mem_cons, List.not_mem_nil,
        or_false] at hb
      rcases hb with hb | hrest
      · exact sizesOk_take s hsz i b hb
      rcases hrest with hAF | hset
      · rcases hAF with h1 | h1
        · subst h1; exact ⟨hage, ha16⟩
        · subst h1
          refine ⟨hsplit, ?_⟩
          show ((getBlk s i).size - asize) % 16 = 0
          omega
      · exact sizesOk_setHeadPF true _ (sizesOk_drop s hsz (i + 1)) b hset
    · exact pfOk_S1 _ _ _ _ _ hP1 hP2 hP3
    · exact epi_S1 _ _ _ _ _ _ hE
    · refine adj_S1 _ _ _ _ _ hA1 hA3
  · rw [place_nosplit_eq s a asize i hidx hsplit]
    have hA2' : lastFreeB false (s.blocks.take i) = false := by
      rcases hA2 with h | h
      · exact h
      · rw [hfree] at h; simp at h
    refine ⟨?_, ⟨?_, ?_⟩, ?_⟩
    · intro b hb
      simp only [List.append_assoc, List.mem_append, List.mem_cons, List.not_mem_nil,
        or_false] at hb
      rcases hb with hb | hb | hb
      · exact sizesOk_take s hsz i b hb
      · subst hb; exact hbsz
      · exact sizesOk_setHeadPF false _ (sizesOk_drop s hsz (i + 1)) b hb
    · exact pfOk_S2 _ _ _ _ true hP1 hP2 hP3
    · exact epi_S2 _ _ _ _ _ true hE
    · exact adj_S2 _ _ _ _ hA1 (noAdjAux_mono _ hA3)

theorem extend_fail_eq (s : MM) (n : Nat) (h : s.mem < n) :
    extend_heap s n = (none, s, [Event.sbrkCall n]) := by
  unfold extend_heap
  rw [if_pos h]

theorem extend_absorb_eq (s : MM) (n la j : Nat) (hmem : ¬ s.mem < n)
    (hla : s.last = some la) (hidx : idxOfAddr s la = some j)
    (hfree : (getBlk s j).used = false) :
    extend_heap s n = (some la,
      { s with
        mem := s.mem - n,
        blocks := s.blocks.take j ++ [⟨n + (getBlk s j).size, true, false⟩],
        epiPrevfree := false,
        seg := segDelete s.seg (get_index (getBlk s j).size) la,
        last := some la },
      [Event.sbrkCall n]) := by
  unfold extend_heap
  rw [if_neg hmem, hla]
  simp only [hidx, hfree]
  rfl

theorem extend_append_none_eq (s : MM) (n : Nat) (hmem : ¬ s.mem < n)
    (hla : s.last = none) :
    extend_heap s n = (some (heapEnd s),
      { s with
        mem := s.mem - n,
        blocks := s.blocks ++ [⟨n, true, false⟩],
        epiPrevfree := false,
        last := some (heapEnd s) },
      [Event.sbrkCall n]) := by
  unfold extend_heap
  rw [if_neg hmem, hla]

theorem extend_append_used_eq (s : MM) (n la j : Nat) (hmem : ¬ s.mem < n)
    (hla : s.last = some la) (hidx : idxOfAddr s la = some j)
    (hused : (getBlk s j).used = true) :
    extend_heap s n = (some (heapEnd s),
      { s with
        mem := s.mem - n,
        blocks := s.blocks ++ [⟨n, true, false⟩],
        epiPrevfree := false,
        last := some (heapEnd s) },
      [Event.sbrkCall n]) := by
  unfold extend_heap
  rw [if_neg hmem, hla]
  simp only [hidx, hused]
  rw [if_pos trivial]

theorem lastOk_nonempty (s : MM) (hlast : lastOk s) (la : Nat) (hla : s.last = some la) :
    s.blocks ≠ [] ∧ la = addrOf s (s.blocks.length - 1) := by
  unfold lastOk at hlast
  rw [hla] at hlast
  by_cases hb : s.blocks.isEmpty
  · rw [if_pos hb] at hlast; simp at hlast
  · rw [if_neg hb] at hlast
    refine ⟨by simpa [List.isEmpty_iff] using hb, ?_⟩
    exact Option.some_inj.1 hlast

theorem lastOk_none (s : MM) (hlast : lastOk s) (hla : s.last = none) :
    s.blocks = [] := by
  unfold lastOk at hlast
  rw [hla] at hlast
  by_cases hb : s.blocks.isEmpty
  · simpa [List.isEmpty_iff] using hb
  · rw [if_neg hb] at hlast; simp at hlast

theorem lastFreeB_of_last_used (s : MM) (hlen : s.blocks ≠ [])
    (h : (getBlk s (s.blocks.length - 1)).used = true) :
    lastFreeB false s.blocks = false := by
  have hl : 0 < s.blocks.length := List.length_pos.2 hlen
  have hi : s.blocks.length - 1 < s.blocks.length := by omega
  have hdec := blocks_decomp s _ hi
  have hdrop : s.blocks.drop (s.blocks.length - 1 + 1) = [] := by
    apply List.drop_eq_nil_of_le
    omega
  rw [hdec, hdrop, lastFreeB_append, lastFreeB, lastFreeB, h]
  simp [lastFreeB]

theorem extend_post (s : MM) (n : Nat)
    (hsz : sizesOk s) (hpf : pfOk s) (hadj : noAdjFree s) (hlast : lastOk s)
    (hmod : n % 16 = 0) (hge : 16 ≤ n) (hok : ¬ s.mem < n) :
    sizesOk (extend_heap s n).2.1 ∧ pfOk (extend_heap s n).2.1 ∧
      noAdjFree (extend_heap s n).2.1 := by
  cases hla : s.last with
  | none =>
    have hempty := lastOk_none s hlast hla
    rw [extend_append_none_eq s n hok hla]
    refine ⟨?_, ⟨?_, ?_⟩, ?_⟩
    · intro b hb
      rcases List.mem_append.1 hb with hb | hb
      · exact hsz b hb
      · simp at hb; subst hb; exact ⟨hge, hmod⟩
    · exact pfOk_S4 _ _ _ hpf.1 (by rw [hempty]; rfl)
    · exact epi_S4 _ _ _
    · exact adj_S4 _ _ _ hadj
  | some la =>
    obtain ⟨hne, haddr⟩ := lastOk_nonempty s hlast la hla
    have hlen : 0 < s.blocks.length := List.length_pos.2 hne
    have hi : s.blocks.length - 1 < s.blocks.length := by omega
    have hidx : idxOfAddr s la = some (s.blocks.length - 1) := by
      rw [haddr]
      exact idxOfAddr_addrOf s (sizesOk_pos s hsz) _ hi
    cases hused : (getBlk s (s.blocks.length - 1)).used with
    | true =>
      rw [extend_append_used_eq s n la _ hok hla hidx hused]
      refine ⟨?_, ⟨?_, ?_⟩, ?_⟩
      · intro b hb
        rcases List.mem_append.1 hb with hb | hb
        · exact hsz b hb
        · simp at hb; subst hb; exact ⟨hge, hmod⟩
      · exact pfOk_S4 _ _ _ hpf.1 (lastFreeB_of_last_used s hne hused).symm
      · exact epi_S4 _ _ _
      · exact adj_S4 _ _ _ hadj
    | false =>
      rw [extend_absorb_eq s n la _ hok hla hidx hused]
      obtain ⟨hP1, hP2, hP3, hA1, hA2, hA3, hE⟩ :=
        invariant_decomp s (s.blocks.length - 1) hi hpf hadj
      have hA2' : lastFreeB false (s.blocks.take (s.blocks.length - 1)) = false := by
        rcases hA2 with h | h
        · exact h
        · rw [hused] at h; simp at h
      have hbsz := hsz _ (getBlk_mem s _ hi)
      refine ⟨?_, ⟨?_, ?_⟩, ?_⟩
      · intro b hb
        rcases List.mem_append.1 hb with hb | hb
        · exact sizesOk_take s hsz _ b hb
        · simp at hb
          subst hb
          constructor
          · show 16 ≤ n + (getBlk s (s.blocks.length - 1)).size
            omega
          · show (n + (getBlk s (s.blocks.length - 1)).size) % 16 = 0
            omega
      · exact pfOk_S4 _ _ _ hP1 hA2'.symm
      · exact epi_S4 _ _ _
      · exact adj_S4 _ _ _ hA1

theorem noAdjAux_prefix (pf : Bool) (l r : List Block)
    (h : noAdjAux pf (l ++ r) = true) : noAdjAux pf l = true := by
  rw [noAdjAux_append, Bool.and_eq_true] at h
  exact h.1

theorem coalesce_blocks (s : MM) (a i : Nat) (hidx : idxOfAddr s a = some i)
    (nfv dlv : Bool)
    (hnf : (decide (i + 1 < s.blocks.length) && !(getBlk s (i + 1)).used) = nfv)
    (hdl : ((getBlk s i).prevfree && decide (0 < i)) = dlv) :
    (coalesce s a).blocks = s.blocks.take (if dlv then i - 1 else i) ++
      [⟨(getBlk s i).size + (if nfv then (getBlk s (i + 1)).size else 0) +
        (if dlv then (getBlk s (i - 1)).size else 0), false, false⟩] ++
      setHeadPF true (s.blocks.drop (i + 1 + (if nfv then 1 else 0))) := by
  unfold coalesce
  rw [hidx]
  simp only [hnf, hdl]

theorem noAdjAux_cons_true (c : Block) (r : List Block) :
    noAdjAux true (c :: r) = (c.used && noAdjAux (!c.used) r) := by
  simp [noAdjAux]

theorem noAdjAux_cons_false (c : Block) (r : List Block) :
    noAdjAux false (c :: r) = noAdjAux (!c.used) r := by
  simp [noAdjAux]

theorem band_true {x y : Bool} (h : (x && y) = true) : x = true ∧ y = true := by
  simp at h
  exact h

theorem coalesce_noAdj (t : MM) (a i : Nat)
    (hidx : idxOfAddr t a = some i)
    (hpf : pfOk t)
    (hL : noAdjAux false (t.blocks.take i) = true)
    (hR : noAdjAux false (t.blocks.drop (i + 1)) = true) :
    noAdjFree (coalesce t a) := by
  have hi : i < t.blocks.length := (idxOfAddr_sound hidx).1
  have hP2 : (getBlk t i).prevfree = lastFreeB false (t.blocks.take i) := by
    obtain ⟨hpf1, _⟩ := hpf
    rw [blocks_decomp t i hi, pfOkAux_append, Bool.and_eq_true, pfOkAux,
      Bool.and_eq_true, beq_iff_eq] at hpf1
    exact hpf1.2.1
  have hdlv_true : ((getBlk t i).prevfree && decide (0 < i)) = true →
      noAdjAux false (t.blocks.take (i - 1)) = true ∧
      lastFreeB false (t.blocks.take (i - 1)) = false := by
    intro hdlv
    have hpfv : (getBlk t i).prevfree = true := (band_true hdlv).1
    have hipos : 0 < i := of_decide_eq_true (band_true hdlv).2
    have him1 : i - 1 < t.blocks.length := by omega
    have htake : t.blocks.take i = t.blocks.take (i - 1) ++ [getBlk t (i - 1)] := by
      have := take_succ_decomp t (i - 1) him1
      rw [← this]
      congr 1
      omega
    have hfm1 : (getBlk t (i - 1)).used = false := by
      rw [hpfv, htake, lastFreeB_append, lastFreeB_singleton] at hP2
      simp [lastFreeB] at hP2
      simp [hP2]
    constructor
    · rw [htake] at hL
      exact noAdjAux_prefix _ _ _ hL
    · rw [htake, noAdjAux_append, Bool.and_eq_true, noAdjAux_singleton, hfm1,
        Bool.or_eq_true] at hL
      rcases hL.2 with h | h
      · simpa using h
      · simp at h
  have hdlv_false : ((getBlk t i).prevfree && decide (0 < i)) = false →
      lastFreeB false (t.blocks.take i) = false := by
    intro hdlv
    rcases Bool.and_eq_false_iff.1 hdlv with h | h
    · rw [← hP2]
      simpa using h
    · have hz : i = 0 := by simpa using h
      subst hz
      rfl
  cases hnfv : (decide (i + 1 < t.blocks.length) && !(getBlk t (i + 1)).used) with
  | true =>
    have hlt : i + 1 < t.blocks.length := of_decide_eq_true (band_true hnfv).1
    have hfree1 : (getBlk t (i + 1)).used = false := by
      have := (band_true hnfv).2
      simpa using this
    have hrest : noAdjAux true (t.blocks.drop (i + 1 + 1)) = true := by
      rw [drop_decomp t (i + 1) hlt, noAdjAux_cons_false, hfree1] at hR
      simpa using hR
    cases hdlv : ((getBlk t i).prevfree && decide (0 < i)) with
    | true =>
      obtain ⟨hpre, hleft⟩ := hdlv_true hdlv
      unfold noAdjFree
      rw [coalesce_blocks t a i hidx true true hnfv hdlv]
      simp only [if_pos rfl]
      exact adj_S3 _ _ _ _ hpre hleft hrest
    | false =>
      have hleft := hdlv_false hdlv
      unfold noAdjFree
      rw [coalesce_blocks t a i hidx true false hnfv hdlv]
      simp only [Bool.false_eq_true, if_neg, if_pos rfl]
      exact adj_S3 _ _ _ _ hL hleft hrest
  | false =>
    have hrest : noAdjAux true (t.blocks.drop (i + 1 + 0)) = true := by
      by_cases hlt : i + 1 < t.blocks.length
      · have hused : (getBlk t (i + 1)).used = true := by
          rcases Bool.and_eq_false_iff.1 hnfv with h | h
          · exfalso
            have h2 : t.blocks.length ≤ i + 1 := by simpa using h
            omega
          · simpa using h
        rw [Nat.add_zero, drop_decomp t (i + 1) hlt, noAdjAux_cons_true, hused]
        rw [drop_decomp t (i + 1) hlt, noAdjAux_cons_false, hused] at hR
        simpa using hR
      · have hnil : t.blocks.drop (i + 1 + 0) = [] := List.drop_eq_nil_of_le (by omega)
        rw [hnil]
        rfl
    cases hdlv : ((getBlk t i).prevfree && decide (0 < i)) with
    | true =>
      obtain ⟨hpre, hleft⟩ := hdlv_true hdlv
      unfold noAdjFree
      rw [coalesce_blocks t a i hidx false true hnfv hdlv]
      simp only [Bool.false_eq_true, if_neg, if_pos rfl]
      exact adj_S3 _ _ _ _ hpre hleft hrest
    | false =>
      have hleft := hdlv_false hdlv
      unfold noAdjFree
      rw [coalesce_blocks t a i hidx false false hnfv hdlv]
      simp only [Bool.false_eq_true, if_neg]
      exact adj_S3 _ _ _ _ hL hleft hrest

theorem idxOfAddrAux_congr (l l' : List Block) (h : l.map Block.size = l'.map Block.size) :
    ∀ c t, idxOfAddrAux l c t = idxOfAddrAux l' c t := by
  induction l generalizing l' with
  | nil =>
    cases l' with
    | nil => intro c t; rfl
    | cons b' r' => simp at h
  | cons b r ih =>
    cases l' with
    | nil => simp at h
    | cons b' r' =>
      simp only [List.map_cons, List.cons.injEq] at h
      intro c t
      rw [idxOfAddrAux, idxOfAddrAux, h.1, ih r' h.2]

theorem take_of_concat (pre rest2 : List Block) (i : Nat) (h : pre.length = i) :
    (pre ++ rest2).take i = pre := by
  subst h
  exact List.take_left pre rest2

theorem drop_of_concat (pre rest2 : List Block) (i : Nat) (h : pre.length = i) :
    (pre ++ rest2).drop i = rest2 := by
  subst h
  exact List.drop_left pre rest2

theorem length_take_of_lt (s : MM) (i : Nat) (h : i < s.blocks.length) :
    (s.blocks.take i).length = i := by
  simp [List.length_take]
  omega

theorem freeMM_some_eq (s : MM) (p i : Nat) (hp : ¬ p = 0)
    (hidx : idxOfAddr s (p - 4) = some i) :
    freeMM s p =
      (let b := getBlk s i
       let s1 : MM := { s with
         blocks := s.blocks.take i ++ [⟨b.size, false, b.prevfree⟩]
           ++ setHeadPF true (s.blocks.drop (i + 1)),
         epiPrevfree := if (s.blocks.drop (i + 1)).isEmpty then true else s.epiPrevfree }
       if b.prevfree || (decide (i + 1 < s.blocks.length) && !(getBlk s (i + 1)).used) then
         coalesce s1 (p - 4)
       else
         { s1 with seg := segAppend s1.seg (get_index b.size) (p - 4) }) := by
  unfold freeMM
  rw [if_neg hp, hidx]

theorem free_noAdj (s : MM) (p : Nat)
    (hsz : sizesOk s) (hpf : pfOk s) (hadj : noAdjFree s) :
    noAdjFree (freeMM s p) := by
  by_cases hp : p = 0
  · unfold freeMM
    rw [if_pos hp]
    exact hadj
  cases hix : idxOfAddr s (p - 4) with
  | none =>
    unfold freeMM
    rw [if_neg hp, hix]
    exact hadj
  | some i =>
    rw [freeMM_some_eq s p i hp hix]
    simp only []
    have hi : i < s.blocks.length := (idxOfAddr_sound hix).1
    obtain ⟨hP1, hP2, hP3, hA1, hA2, hA3, hE⟩ := invariant_decomp s i hi hpf hadj
    have hlen : (s.blocks.take i).length = i := length_take_of_lt s i hi
    have hsizes : (s.blocks.take i ++ [(⟨(getBlk s i).size, false, (getBlk s i).prevfree⟩ : Block)]
        ++ setHeadPF true (s.blocks.drop (i + 1))).map Block.size = s.blocks.map Block.size := by
      conv_rhs => rw [blocks_decomp s i hi]
      simp only [List.append_assoc, List.map_append, List.map_cons, setHeadPF_sizes]
      rfl
    have hrestAdjF : noAdjAux false (s.blocks.drop (i + 1)) = true := by
      cases hu : (getBlk s i).used with
      | true => rw [hu] at hA3; simpa using hA3
      | false =>
        rw [hu] at hA3
        exact noAdjAux_mono _ (by simpa using hA3)
    by_cases hco : ((getBlk s i).prevfree
        || (decide (i + 1 < s.blocks.length) && !(getBlk s (i + 1)).used)) = true
    · rw [if_pos hco]
      set s1 : MM := { s with
        blocks := s.blocks.take i ++ [⟨(getBlk s i).size, false, (getBlk s i).prevfree⟩]
          ++ setHeadPF true (s.blocks.drop (i + 1)),
        epiPrevfree := if (s.blocks.drop (i + 1)).isEmpty then true else s.epiPrevfree }
        with hs1
      have hidx1 : idxOfAddr s1 (p - 4) = some i := by
        unfold idxOfAddr at hix ⊢
        rw [idxOfAddrAux_congr s1.blocks s.blocks (by rw [hs1]; exact hsizes)]
        exact hix
      have hpf1 : pfOk s1 := by
        constructor
        · show pfOkAux false (s.blocks.take i ++ [⟨(getBlk s i).size, false,
            (getBlk s i).prevfree⟩] ++ setHeadPF true (s.blocks.drop (i + 1))) = true
          exact pfOk_S3 _ _ _ _ (!(getBlk s i).used) hP1 hP2 hP3
        · show (if (s.blocks.drop (i + 1)).isEmpty then true else s.epiPrevfree) = _
          exact epi_S3 _ _ _ _ _ (!(getBlk s i).used) hE
      have hL1 : noAdjAux false (s1.blocks.take i) = true := by
        rw [hs1]
        show noAdjAux false ((s.blocks.take i ++ [(⟨(getBlk s i).size, false,
          (getBlk s i).prevfree⟩ : Block)] ++ setHeadPF true (s.blocks.drop (i + 1))).take i) = true
        rw [List.append_assoc, take_of_concat _ _ i hlen]
        exact hA1
      have hR1 : noAdjAux false (s1.blocks.drop (i + 1)) = true := by
        rw [hs1]
        show noAdjAux false ((s.blocks.take i ++ [(⟨(getBlk s i).size, false,
          (getBlk s i).prevfree⟩ : Block)] ++ setHeadPF true (s.blocks.drop (i + 1))).drop (i + 1)) = true
        rw [drop_of_concat _ _ (i + 1) (by simp [hlen]), noAdjAux_setHeadPF]
        exact hrestAdjF
      exact coalesce_noAdj s1 (p - 4) i hidx1 hpf1 hL1 hR1
    · rw [if_neg hco]
      have hco2 : ((getBlk s i).prevfree
          || (decide (i + 1 < s.blocks.length) && !(getBlk s (i + 1)).used)) = false := by
        simpa using hco
      rw [Bool.or_eq_false_iff] at hco2
      show noAdjAux false (s.blocks.take i ++ [⟨(getBlk s i).size, false,
        (getBlk s i).prevfree⟩] ++ setHeadPF true (s.blocks.drop (i + 1))) = true
      have hleft : lastFreeB false (s.blocks.take i) = false := by
        rw [← hP2]
        exact hco2.1
      have hrest : noAdjAux true (s.blocks.drop (i + 1)) = true := by
        cases hdl : s.blocks.drop (i + 1) with
        | nil => rfl
        | cons c r =>
          have hlt : i + 1 < s.blocks.length := by
            by_contra hcon
            rw [List.drop_eq_nil_of_le (by omega)] at hdl
            simp at hdl
          have hcu : (getBlk s (i + 1)).used = true := by
            rcases Bool.and_eq_false_iff.1 hco2.2 with h | h
            · exfalso
              have h2 : s.blocks.length ≤ i + 1 := by simpa using h
              omega
            · simpa using h
          have hc : c = getBlk s (i + 1) := by
            rw [drop_decomp s (i + 1) hlt] at hdl
            exact (List.cons.injEq _ _ _ _ ▸ hdl).1.symm
          rw [noAdjAux_cons_true, hc, hcu]
          rw [hdl, noAdjAux_cons_false, hc, hcu] at hrestAdjF
          simpa using hrestAdjF
      exact adj_S3 _ _ _ _ hA1 hleft hrest

theorem malloc_zero_eq (s : MM) : malloc s 0 = (none, s, []) := rfl

theorem malloc_fit_eq (s : MM) (n a : Nat) (hn : ¬ n = 0)
    (hff : find_fit s (round_up (n + 4)) = some a) :
    malloc s n = (some (a + 4), place s a (round_up (n + 4)), []) := by
  unfold malloc
  rw [if_neg hn]
  simp only [hff]

theorem malloc_miss_eq (s : MM) (n : Nat) (hn : ¬ n = 0)
    (hff : find_fit s (round_up (n + 4)) = none) :
    malloc s n =
      (match extend_heap s (round_up (n + 4) - lastFreeSize s) with
        | (none, s1, ev) => (none, s1, ev)
        | (some a, s1, ev) => (some (a + 4), s1, ev)) := by
  unfold malloc
  rw [if_neg hn]
  simp only [hff]

theorem fit_block (s : MM) (asize a : Nat) (hseg : segWF s) (hsz : sizesOk s)
    (hff : find_fit s asize = some a) :
    ∃ i, idxOfAddr s a = some i ∧ i < s.blocks.length ∧ addrOf s i = a ∧
      (getBlk s i).used = false ∧ asize ≤ (getBlk s i).size := by
  obtain ⟨k, _, hk9, hmem, hfit, _, _⟩ := find_fit_some_spec s asize a hff
  obtain ⟨i, hi, ha, hfree, _⟩ := hseg k hk9 a hmem
  refine ⟨i, ?_, hi, ha, hfree, ?_⟩
  · rw [← ha]
    exact idxOfAddr_addrOf s (sizesOk_pos s hsz) i hi
  · rwa [← ha, sizeAtD_addrOf s hsz i hi] at hfit

theorem lastFreeSize_lt (s : MM) (n : Nat) (hseg : segWF s) (hco : segCo s)
    (hsz : sizesOk s) (hlast : lastOk s)
    (hff : find_fit s (round_up (n + 4)) = none) (hn : ¬ n = 0) :
    lastFreeSize s % 16 = 0 ∧ lastFreeSize s < round_up (n + 4) := by
  have h16 : round_up (n + 4) % 16 = 0 := round_up_mod16 _
  have hge : 16 ≤ round_up (n + 4) := round_up_ge_16 _ (by omega)
  unfold lastFreeSize
  cases hla : s.last with
  | none => simp; omega
  | some la =>
    obtain ⟨hne, haddr⟩ := lastOk_nonempty s hlast la hla
    have hlen : 0 < s.blocks.length := List.length_pos.2 hne
    have hi : s.blocks.length - 1 < s.blocks.length := by omega
    show (if freeAtD s la = true then sizeAtD s la else 0) % 16 = 0 ∧
      (if freeAtD s la = true then sizeAtD s la else 0) < round_up (n + 4)
    rw [haddr, freeAtD_addrOf s hsz _ hi, sizeAtD_addrOf s hsz _ hi]
    cases hu : (getBlk s (s.blocks.length - 1)).used with
    | true => simp; omega
    | false =>
      simp only [Bool.not_false, if_pos]
      have hblk := hsz _ (getBlk_mem s _ hi)
      have := find_fit_none_sizes s (round_up (n + 4)) hseg hco hsz h16 hge hff
        (s.blocks.length - 1) hi hu
      exact ⟨hblk.2, this⟩

theorem malloc_post (s : MM) (n : Nat) (hWF : WF s) :
    sizesOk (malloc s n).2.1 ∧ pfOk (malloc s n).2.1 ∧ noAdjFree (malloc s n).2.1 := by
  obtain ⟨hsz, hpf, hadj, hseg, hco, hlast, h9⟩ := hWF
  by_cases hn : n = 0
  · subst hn
    rw [malloc_zero_eq]
    exact ⟨hsz, hpf, hadj⟩
  have h16 : round_up (n + 4) % 16 = 0 := round_up_mod16 _
  have hge : 16 ≤ round_up (n + 4) := round_up_ge_16 _ (by omega)
  cases hff : find_fit s (round_up (n + 4)) with
  | some a =>
    rw [malloc_fit_eq s n a hn hff]
    obtain ⟨i, hidx, hi, ha, hfree, hle⟩ := fit_block s _ a hseg hsz hff
    have := place_post s a (round_up (n + 4)) i hidx hfree hle h16 hge hsz hpf hadj
    exact ⟨this.1, this.2.1, this.2.2⟩
  | none =>
    rw [malloc_miss_eq s n hn hff]
    obtain ⟨hlmod, hllt⟩ := lastFreeSize_lt s n hseg hco hsz hlast hff hn
    have hemod : (round_up (n + 4) - lastFreeSize s) % 16 = 0 := by omega
    have hege : 16 ≤ round_up (n + 4) - lastFreeSize s := by omega
    by_cases hok : s.mem < round_up (n + 4) - lastFreeSize s
    · rw [extend_fail_eq s _ hok]
      exact ⟨hsz, hpf, hadj⟩
    · have := extend_post s (round_up (n + 4) - lastFreeSize s)
        hsz hpf hadj hlast hemod hege hok
      rcases hext : extend_heap s (round_up (n + 4) - lastFreeSize s) with ⟨_ | a, s1, ev⟩
      · rw [hext] at this
        exact this
      · rw [hext] at this
        exact this

theorem extend_append_noidx_eq (s : MM) (n la : Nat) (hmem : ¬ s.mem < n)
    (hla : s.last = some la) (hidx : idxOfAddr s la = none) :
    extend_heap s n = (some (heapEnd s),
      { s with
        mem := s.mem - n,
        blocks := s.blocks ++ [⟨n, true, false⟩],
        epiPrevfree := false,
        last := some (heapEnd s) },
      [Event.sbrkCall n]) := by
  unfold extend_heap
  rw [if_neg hmem, hla]
  simp only [hidx]

theorem extend_cases (s : MM) (n : Nat) (C : Option Nat × MM × List Event → Prop)
    (hfail : s.mem < n → C (none, s, [Event.sbrkCall n]))
    (habsorb : ∀ la j, ¬ s.mem < n → s.last = some la → idxOfAddr s la = some j →
      (getBlk s j).used = false →
      C (some la,
        { s with
          mem := s.mem - n,
          blocks := s.blocks.take j ++ [⟨n + (getBlk s j).size, true, false⟩],
          epiPrevfree := false,
          seg := segDelete s.seg (get_index (getBlk s j).size) la,
          last := some la },
        [Event.sbrkCall n]))
    (happend : ¬ s.mem < n →
      C (some (heapEnd s),
        { s with
          mem := s.mem - n,
          blocks := s.blocks ++ [⟨n, true, false⟩],
          epiPrevfree := false,
          last := some (heapEnd s) },
        [Event.sbrkCall n])) :
    C (extend_heap s n) := by
  by_cases hok : s.mem < n
  · rw [extend_fail_eq s n hok]
    exact hfail hok
  · cases hla : s.last with
    | none =>
      rw [extend_append_none_eq s n hok hla]
      exact happend hok
    | some la =>
      cases hj : idxOfAddr s la with
      | none =>
        rw [extend_append_noidx_eq s n la hok hla hj]
        exact happend hok
      | some j =>
        cases hu : (getBlk s j).used with
        | true =>
          rw [extend_append_used_eq s n la j hok hla hj hu]
          exact happend hok
        | false =>
          rw [extend_absorb_eq s n la j hok hla hj hu]
          exact habsorb la j hok hla hj hu

theorem extend_events (s : MM) (n : Nat) : (extend_heap s n).2.2 = [Event.sbrkCall n] := by
  apply extend_cases s n (fun out => out.2.2 = [Event.sbrkCall n])
  · intro _; rfl
  · intro la j _ _ _ _; rfl
  · intro _; rfl

theorem extend_none_iff (s : MM) (n : Nat) : (extend_heap s n).1 = none ↔ s.mem < n := by
  constructor
  · intro h
    by_contra hok
    revert h
    apply extend_cases s n (fun out => out.1 = none → False)
    · intro hl; exact absurd hl hok
    · intro la j _ _ _ _ h; simp at h
    · intro _ h; simp at h
  · intro h
    rw [extend_fail_eq s n h]

theorem malloc_events_sbrk (s : MM) (n : Nat) :
    ∀ e ∈ (malloc s n).2.2, ∃ k, e = Event.sbrkCall k := by
  by_cases hn : n = 0
  · subst hn; rw [malloc_zero_eq]; simp
  cases hff : find_fit s (round_up (n + 4)) with
  | some a => rw [malloc_fit_eq s n a hn hff]; simp
  | none =>
    rw [malloc_miss_eq s n hn hff]
    rcases hext : extend_heap s (round_up (n + 4) - lastFreeSize s) with ⟨_ | a, s1, ev⟩
    · have hev := extend_events s (round_up (n + 4) - lastFreeSize s)
      rw [hext] at hev
      simp only at hev
      simp [hev]
    · have hev := extend_events s (round_up (n + 4) - lastFreeSize s)
      rw [hext] at hev
      simp only at hev
      simp [hev]

theorem malloc_miss_parts (s : MM) (n : Nat) (hn : ¬ n = 0)
    (hff : find_fit s (round_up (n + 4)) = none) :
    (malloc s n).1 =
      Option.map (· + 4) (extend_heap s (round_up (n + 4) - lastFreeSize s)).1 ∧
    (malloc s n).2 = (extend_heap s (round_up (n + 4) - lastFreeSize s)).2 := by
  rw [malloc_miss_eq s n hn hff]
  rcases extend_heap s (round_up (n + 4) - lastFreeSize s) with ⟨_ | a, s1, ev⟩
  · exact ⟨rfl, rfl⟩
  · exact ⟨rfl, rfl⟩

theorem malloc_none_state (s : MM) (n : Nat) (h : (malloc s n).1 = none) :
    (malloc s n).2.1 = s := by
  by_cases hn : n = 0
  · subst hn; rw [malloc_zero_eq]
  cases hff : find_fit s (round_up (n + 4)) with
  | some a => rw [malloc_fit_eq s n a hn hff] at h; simp at h
  | none =>
    obtain ⟨h1, h2⟩ := malloc_miss_parts s n hn hff
    rw [h1] at h
    have hnone : (extend_heap s (round_up (n + 4) - lastFreeSize s)).1 = none := by
      cases hx : (extend_heap s (round_up (n + 4) - lastFreeSize s)).1 with
      | none => rfl
      | some a => rw [hx] at h; simp at h
    have hok := (extend_none_iff s _).1 hnone
    rw [h2, extend_fail_eq s _ hok]

theorem malloc_aligned (s : MM) (n r : Nat) (hsz : sizesOk s) (hseg : segWF s)
    (hlast : lastOk s) (hbase : s.base % 16 = 0) (h : (malloc s n).1 = some r) :
    r % 16 = 0 := by
  have hmodStart : heapStart s % 16 = 12 := by
    unfold heapStart; omega
  by_cases hn : n = 0
  · subst hn; rw [malloc_zero_eq] at h; simp at h
  cases hff : find_fit s (round_up (n + 4)) with
  | some a =>
    rw [malloc_fit_eq s n a hn hff] at h
    simp at h
    obtain ⟨i, _, _, ha, _, _⟩ := fit_block s _ a hseg hsz hff
    have := addrOf_mod16 s hsz i
    subst h
    rw [← ha]
    omega
  | none =>
    obtain ⟨h1, _⟩ := malloc_miss_parts s n hn hff
    rw [h1] at h
    have hEnd : heapEnd s % 16 = 12 := by
      unfold heapEnd
      have := sumSizes_mod16 s.blocks hsz
      omega
    revert h
    apply extend_cases s (round_up (n + 4) - lastFreeSize s)
      (fun out => Option.map (· + 4) out.1 = some r → r % 16 = 0)
    · intro _ h; simp at h
    · intro la j _ hla hj hu h
      simp only [Option.map_some'] at h
      injection h with h2
      obtain ⟨_, haddr⟩ := idxOfAddr_sound hj
      have := addrOf_mod16 s hsz j
      omega
    · intro _ h
      simp only [Option.map_some'] at h
      injection h with h2
      omega


theorem realloc_cases (s : MM) (p n : Nat) (C : Option Nat × MM × List Event → Prop)
    (hnull : p = 0 → C (malloc s n))
    (hzero : ¬ p = 0 → n = 0 → C (none, freeMM s p, []))
    (hnoidx : ¬ p = 0 → ¬ n = 0 → idxOfAddr s (p - 4) = none → C (none, s, []))
    (hextfail : ∀ i, ¬ p = 0 → ¬ n = 0 → idxOfAddr s (p - 4) = some i →
      free_size s i < round_up (n + 4) → change_last s i (p - 4) = true →
      s.mem < round_up (n + 4) - free_size s i →
      C (none, s, [Event.sbrkCall (round_up (n + 4) - free_size s i)]))
    (hextok : ∀ i x s1 ev, ¬ p = 0 → ¬ n = 0 → idxOfAddr s (p - 4) = some i →
      free_size s i < round_up (n + 4) → change_last s i (p - 4) = true →
      extend_heap s (round_up (n + 4) - free_size s i) = (some x, s1, ev) →
      C (some p, { s1 with
        blocks := s1.blocks.take i ++ [⟨round_up (n + 4), true, false⟩],
        epiPrevfree := false, last := some (p - 4) }, ev))
    (hcpfail : ∀ i, ¬ p = 0 → ¬ n = 0 → idxOfAddr s (p - 4) = some i →
      free_size s i < round_up (n + 4) → change_last s i (p - 4) = false →
      (malloc s n).1 = none →
      C (none, s, (malloc s n).2.2))
    (hcpok : ∀ i q s1 ev, ¬ p = 0 → ¬ n = 0 → idxOfAddr s (p - 4) = some i →
      free_size s i < round_up (n + 4) → change_last s i (p - 4) = false →
      malloc s n = (some q, s1, ev) →
      C (some q, freeMM s1 p, ev ++ [Event.memcpyEv (free_size s i - 4)]))
    (hsplit : ∀ i, ¬ p = 0 → ¬ n = 0 → idxOfAddr s (p - 4) = some i →
      ¬ free_size s i < round_up (n + 4) → 16 ≤ free_size s i - round_up (n + 4) →
      C (some p, { s with
        blocks := s.blocks.take i ++ [⟨round_up (n + 4), true, (getBlk s i).prevfree⟩,
          ⟨free_size s i - round_up (n + 4), false, false⟩]
          ++ setHeadPF true (s.blocks.drop (i + 1 + (if next_free s i then 1 else 0))),
        epiPrevfree := if (s.blocks.drop (i + 1 + (if next_free s i then 1 else 0))).isEmpty
          then true else s.epiPrevfree,
        seg := segAppend (if next_free s i then segDelete s.seg
            (get_index (getBlk s (i + 1)).size) (p - 4 + (getBlk s i).size) else s.seg)
          (get_index (free_size s i - round_up (n + 4))) (p - 4 + round_up (n + 4)),
        last := if change_last s i (p - 4) then some (p - 4 + round_up (n + 4))
          else s.last }, []))
    (hnosplit : ∀ i, ¬ p = 0 → ¬ n = 0 → idxOfAddr s (p - 4) = some i →
      ¬ free_size s i < round_up (n + 4) → ¬ 16 ≤ free_size s i - round_up (n + 4) →
      C (some p, { s with
        blocks := s.blocks.take i ++ [⟨free_size s i, true, (getBlk s i).prevfree⟩]
          ++ setHeadPF false (s.blocks.drop (i + 1 + (if next_free s i then 1 else 0))),
        epiPrevfree := if (s.blocks.drop (i + 1 + (if next_free s i then 1 else 0))).isEmpty
          then false else s.epiPrevfree,
        seg := if next_free s i then segDelete s.seg
          (get_index (getBlk s (i + 1)).size) (p - 4 + (getBlk s i).size) else s.seg,
        last := if change_last s i (p - 4) then some (p - 4) else s.last }, [])) :
    C (reallocMM s p n) := by
  unfold reallocMM
  by_cases hp : p = 0
  · rw [if_pos hp]
    exact hnull hp
  rw [if_neg hp]
  by_cases hn : n = 0
  · rw [if_pos hn]
    exact hzero hp hn
  rw [if_neg hn]
  cases hidx : idxOfAddr s (p - 4) with
  | none => exact hnoidx hp hn hidx
  | some i =>
    simp only []
    by_cases hfsz : free_size s i < round_up (n + 4)
    · rw [if_pos hfsz]
      by_cases hcl : change_last s i (p - 4) = true
      · rw [if_pos hcl]
        rcases hext : extend_heap s (round_up (n + 4) - free_size s i) with ⟨x, s1, ev⟩
        cases x with
        | none =>
          have h1 : (extend_heap s (round_up (n + 4) - free_size s i)).1 = none := by
            rw [hext]
          have hok := (extend_none_iff s _).1 h1
          have hfe := extend_fail_eq s _ hok
          rw [hfe] at hext
          injection hext with h2 h3
          injection h3 with h4 h5
          subst h4
          subst h5
          exact hextfail i hp hn hidx hfsz hcl hok
        | some x => exact hextok i x s1 ev hp hn hidx hfsz hcl hext
      · rw [if_neg hcl]
        have hclf : change_last s i (p - 4) = false := by
          simpa using hcl
        rcases hml : malloc s n with ⟨q, s1, ev⟩
        cases q with
        | none =>
          have h1 : (malloc s n).1 = none := by rw [hml]
          have h2 : (malloc s n).2.2 = ev := by rw [hml]
          rw [← h2]
          exact hcpfail i hp hn hidx hfsz hclf h1
        | some q => exact hcpok i q s1 ev hp hn hidx hfsz hclf hml
    · rw [if_neg hfsz]
      by_cases hng : 16 ≤ free_size s i - round_up (n + 4)
      · rw [if_pos hng]
        exact hsplit i hp hn hidx hfsz hng
      · rw [if_neg hng]
        exact hnosplit i hp hn hidx hfsz hng

theorem noAdjAux_take_of (l : List Block) (k : Nat) (h : noAdjAux false l = true) :
    noAdjAux false (l.take k) = true := by
  have := List.take_append_drop k l
  rw [← this] at h
  exact noAdjAux_prefix _ _ _ h

theorem nf_drop_adj (s : MM) (i : Nat) (w : Bool)
    (h : noAdjAux w (s.blocks.drop (i + 1)) = true) :
    noAdjAux true (s.blocks.drop (i + 1 + (if next_free s i then 1 else 0))) = true := by
  by_cases hnf : next_free s i = true
  · rw [if_pos hnf]
    have hlt : i + 1 < s.blocks.length := of_decide_eq_true (band_true hnf).1
    have hfree1 : (getBlk s (i + 1)).used = false := by
      have := (band_true hnf).2
      simpa using this
    rw [drop_decomp s (i + 1) hlt, noAdjAux, Bool.and_eq_true] at h
    rw [hfree1] at h
    simpa using h.2
  · rw [if_neg hnf, Nat.add_zero]
    have hnf2 : next_free s i = false := by simpa using hnf
    by_cases hlt : i + 1 < s.blocks.length
    · have hused : (getBlk s (i + 1)).used = true := by
        rcases Bool.and_eq_false_iff.1 hnf2 with hx | hx
        · exfalso
          have h2 : s.blocks.length ≤ i + 1 := by simpa using hx
          omega
        · simpa using hx
      rw [drop_decomp s (i + 1) hlt, noAdjAux, Bool.and_eq_true] at h
      rw [drop_decomp s (i + 1) hlt, noAdjAux_cons_true, hused]
      rw [hused] at h
      simpa using h.2
    · rw [List.drop_eq_nil_of_le (by omega)]
      rfl

theorem realloc_noAdj (s : MM) (p n : Nat) (hWF : WF s) :
    noAdjFree (reallocMM s p n).2.1 := by
  obtain ⟨hsz, hpf, hadj, hseg, hco, hlast, h9⟩ := hWF
  apply realloc_cases s p n (fun out => noAdjFree out.2.1)
  · intro _
    exact (malloc_post s n ⟨hsz, hpf, hadj, hseg, hco, hlast, h9⟩).2.2
  · intro _ _
    exact free_noAdj s p hsz hpf hadj
  · intro _ _ _
    exact hadj
  · intro i _ _ _ _ _ _
    exact hadj
  · intro i x s1 ev _ _ hidx hfsz _ hext
    have hi : i < s.blocks.length := (idxOfAddr_sound hidx).1
    have hblk := hsz _ (getBlk_mem s i hi)
    have hnsz : free_size s i % 16 = 0 := by
      unfold free_size
      by_cases hnf : next_free s i = true
      · rw [if_pos hnf]
        have hlt : i + 1 < s.blocks.length := of_decide_eq_true (band_true hnf).1
        have hblk1 := hsz _ (getBlk_mem s (i + 1) hlt)
        omega
      · rw [if_neg hnf]
        omega
    have hemod : (round_up (n + 4) - free_size s i) % 16 = 0 := by
      have := round_up_mod16 (n + 4)
      omega
    have hege : 16 ≤ round_up (n + 4) - free_size s i := by
      have := round_up_mod16 (n + 4)
      omega
    have hok : ¬ s.mem < round_up (n + 4) - free_size s i := by
      intro hcon
      have := extend_fail_eq s _ hcon
      rw [this] at hext
      simp at hext
    have hpost := extend_post s (round_up (n + 4) - free_size s i)
      hsz hpf hadj hlast hemod hege hok
    have hs1 : s1 = (extend_heap s (round_up (n + 4) - free_size s i)).2.1 := by
      rw [hext]
    unfold noAdjFree
    show noAdjAux false (s1.blocks.take i ++ [(⟨round_up (n + 4), true, false⟩ : Block)]) = true
    apply adj_S4
    apply noAdjAux_take_of
    rw [hs1]
    exact hpost.2.2
  · intro i _ _ _ _ _ _
    exact hadj
  · intro i q s1 ev _ _ _ _ _ hml
    have hpost := malloc_post s n ⟨hsz, hpf, hadj, hseg, hco, hlast, h9⟩
    have hs1 : s1 = (malloc s n).2.1 := by rw [hml]
    subst hs1
    exact free_noAdj _ p hpost.1 hpost.2.1 hpost.2.2
  · intro i _ _ hidx _ _
    have hi : i < s.blocks.length := (idxOfAddr_sound hidx).1
    obtain ⟨hP1, hP2, hP3, hA1, hA2, hA3, hE⟩ := invariant_decomp s i hi hpf hadj
    unfold noAdjFree
    show noAdjAux false (s.blocks.take i ++ [(⟨round_up (n + 4), true,
      (getBlk s i).prevfree⟩ : Block), ⟨free_size s i - round_up (n + 4), false, false⟩]
      ++ setHeadPF true (s.blocks.drop (i + 1 + (if next_free s i then 1 else 0)))) = true
    exact adj_S1 _ _ _ _ _ hA1 (nf_drop_adj s i _ hA3)
  · intro i _ _ hidx _ _
    have hi : i < s.blocks.length := (idxOfAddr_sound hidx).1
    obtain ⟨hP1, hP2, hP3, hA1, hA2, hA3, hE⟩ := invariant_decomp s i hi hpf hadj
    unfold noAdjFree
    show noAdjAux false (s.blocks.take i ++ [(⟨free_size s i, true,
      (getBlk s i).prevfree⟩ : Block)]
      ++ setHeadPF false (s.blocks.drop (i + 1 + (if next_free s i then 1 else 0)))) = true
    exact adj_S2 _ _ _ _ hA1 (noAdjAux_mono _ (nf_drop_adj s i _ hA3))

theorem calloc_noAdj (s : MM) (a b : Nat) (hWF : WF s) :
    noAdjFree (callocMM s a b).2.1 := by
  have hpost := (malloc_post s (a * b) hWF).2.2
  unfold callocMM
  simp only []
  rcases hml : malloc s (a * b) with ⟨q, s1, ev⟩
  rw [hml] at hpost
  cases q with
  | none => exact hpost
  | some q => exact hpost

theorem realloc_oom_core (s : MM) (p n : Nat) (hp : ¬ p = 0) (hn : ¬ n = 0) :
    (reallocMM s p n).1 = none →
      (reallocMM s p n).2.1 = s ∧
      (∀ k, Event.memcpyEv k ∉ (reallocMM s p n).2.2 ∧
        Event.memsetEv k ∉ (reallocMM s p n).2.2) := by
  apply realloc_cases s p n (fun out => out.1 = none →
    out.2.1 = s ∧ (∀ k, Event.memcpyEv k ∉ out.2.2 ∧ Event.memsetEv k ∉ out.2.2))
  · intro h; exact absurd h hp
  · intro _ h; exact absurd h hn
  · intro _ _ _ _
    exact ⟨rfl, by simp⟩
  · intro i _ _ _ _ _ _ _
    refine ⟨rfl, ?_⟩
    intro k
    constructor <;> simp
  · intro i x s1 ev _ _ _ _ _ _ h
    simp at h
  · intro i _ _ _ _ _ _ _
    refine ⟨rfl, ?_⟩
    intro k
    have hev := malloc_events_sbrk s n
    constructor
    · intro hmem
      obtain ⟨k2, hk⟩ := hev _ hmem
      simp at hk
    · intro hmem
      obtain ⟨k2, hk⟩ := hev _ hmem
      simp at hk
  · intro i q s1 ev _ _ _ _ _ _ h
    simp at h
  · intro i _ _ _ _ _ h
    simp at h
  · intro i _ _ _ _ _ h
    simp at h

theorem realloc_copy_moves (s : MM) (p n i q : Nat) (s1 : MM) (ev : List Event)
    (hp : ¬ p = 0) (hn : ¬ n = 0) (hidx : idxOfAddr s (p - 4) = some i)
    (hfsz : free_size s i < round_up (n + 4))
    (hcl : change_last s i (p - 4) = false)
    (hml : malloc s n = (some q, s1, ev)) :
    reallocMM s p n = (some q, freeMM s1 p, ev ++ [Event.memcpyEv (free_size s i - 4)]) := by
  unfold reallocMM
  rw [if_neg hp, if_neg hn, hidx]
  simp only []
  rw [if_pos hfsz, if_neg (by rw [hcl]; exact Bool.false_ne_true), hml]

theorem realloc_aligned (s : MM) (p n r : Nat) (hsz : sizesOk s) (hseg : segWF s)
    (hlast : lastOk s) (hbase : s.base % 16 = 0)
    (h : (reallocMM s p n).1 = some r) : r = p ∨ r % 16 = 0 := by
  revert h
  apply realloc_cases s p n (fun out => out.1 = some r → r = p ∨ r % 16 = 0)
  · intro _ h
    exact Or.inr (malloc_aligned s n r hsz hseg hlast hbase h)
  · intro _ _ h; simp at h
  · intro _ _ _ h; simp at h
  · intro i _ _ _ _ _ _ h; simp at h
  · intro i x s1 ev _ _ _ _ _ _ h
    simp at h
    exact Or.inl h.symm
  · intro i _ _ _ _ _ _ h; simp at h
  · intro i q s1 ev _ _ _ _ _ hml h
    simp at h
    have hq : (malloc s n).1 = some r := by rw [hml]; simp [h]
    exact Or.inr (malloc_aligned s n r hsz hseg hlast hbase hq)
  · intro i _ _ _ _ _ h
    simp at h
    exact Or.inl h.symm
  · intro i _ _ _ _ _ h
    simp at h
    exact Or.inl h.symm

theorem lastFreeSize_eq (s : MM) (la : Nat) (hla : s.last = some la)
    (hfree : freeAtD s la = true) : lastFreeSize s = sizeAtD s la := by
  unfold lastFreeSize
  rw [hla]
  simp only [hfree, if_pos]

theorem malloc_extend_absorbing (s : MM) (size la : Nat) (hWF : WF s) (hn : ¬ size = 0)
    (hff : find_fit s (round_up (size + 4)) = none)
    (hla : s.last = some la) (hfree : freeAtD s la = true)
    (hmem : ¬ s.mem < round_up (size + 4) - sizeAtD s la) :
    (malloc s size).2.2 = [Event.sbrkCall (round_up (size + 4) - sizeAtD s la)] ∧
    (malloc s size).1 = some (la + 4) ∧
    (malloc s size).2.1.blocks =
      s.blocks.take (s.blocks.length - 1) ++ [⟨round_up (size + 4), true, false⟩] ∧
    addrOf (malloc s size).2.1 (s.blocks.length - 1) = la ∧
    sizeAtD s la < round_up (size + 4) := by
  obtain ⟨hsz, hpf, hadj, hseg, hco, hlast, h9⟩ := hWF
  obtain ⟨hne, haddr⟩ := lastOk_nonempty s hlast la hla
  have hlen : 0 < s.blocks.length := List.length_pos.2 hne
  have hi : s.blocks.length - 1 < s.blocks.length := by omega
  have hidx : idxOfAddr s la = some (s.blocks.length - 1) := by
    rw [haddr]
    exact idxOfAddr_addrOf s (sizesOk_pos s hsz) _ hi
  have hused : (getBlk s (s.blocks.length - 1)).used = false := by
    rw [haddr, freeAtD_addrOf s hsz _ hi] at hfree
    simpa using hfree
  have hsla : sizeAtD s la = (getBlk s (s.blocks.length - 1)).size := by
    rw [haddr, sizeAtD_addrOf s hsz _ hi]
  have hlfs : lastFreeSize s = sizeAtD s la := lastFreeSize_eq s la hla hfree
  have hlt : sizeAtD s la < round_up (size + 4) := by
    rw [hsla]
    exact find_fit_none_sizes s _ hseg hco hsz (round_up_mod16 _)
      (round_up_ge_16 _ (by omega)) hff _ hi hused
  obtain ⟨h1, h2⟩ := malloc_miss_parts s size hn hff
  rw [hlfs] at h1 h2
  have hext := extend_absorb_eq s (round_up (size + 4) - sizeAtD s la) la
    (s.blocks.length - 1) hmem hla hidx hused
  have hsize_eq : round_up (size + 4) - sizeAtD s la + (getBlk s (s.blocks.length - 1)).size
      = round_up (size + 4) := by
    rw [← hsla]
    omega
  refine ⟨?_, ?_, ?_, ?_, hlt⟩
  · have := extend_events s (round_up (size + 4) - sizeAtD s la)
    rw [show (malloc s size).2.2 = ((malloc s size).2).2 from rfl, h2]
    exact this
  · rw [h1, hext]
    rfl
  · rw [show (malloc s size).2.1 = ((malloc s size).2).1 from rfl, h2, hext]
    simp only []
    rw [hsize_eq]
  · unfold addrOf
    rw [show (malloc s size).2.1 = ((malloc s size).2).1 from rfl, h2, hext]
    simp only []
    rw [take_of_concat _ _ _ (length_take_of_lt s _ hi)]
    rw [haddr]
    rfl

theorem calloc_fst (s : MM) (a b : Nat) : (callocMM s a b).1 = (malloc s (a * b)).1 := by
  unfold callocMM
  simp only []
  rcases malloc s (a * b) with ⟨q, s1, ev⟩
  cases q with
  | none => rfl
  | some q => rfl

/-- Concrete well-formed heap reached from `mm_init` by `malloc(28)`,
`malloc(12)`, `free` of the first block: a 32-byte free block followed by a
16-byte allocated block that is `last`. -/
def sEx : MM :=
  { base := 0, blocks := [⟨32, false, false⟩, ⟨16, true, true⟩],
    epiPrevfree := false, seg := [[], [92], [], [], [], [], [], [], []],
    last := some 124, mem := 9848 }

/-- Concrete well-formed heap with free blocks of sizes 64, 48 and 80
(separated by allocated blocks so that coalescing invariants hold); 64 and
48 classify into bucket 2, 80 into bucket 3. -/
def sFit : MM :=
  { base := 0,
    blocks := [⟨64, false, false⟩, ⟨16, true, true⟩, ⟨48, false, false⟩,
      ⟨16, true, true⟩, ⟨80, false, false⟩, ⟨16, true, true⟩],
    epiPrevfree := false,
    seg := [[], [], [92, 172], [236], [], [], [], [], []],
    last := some 316, mem := 1000 }

/-- Concrete well-formed heap: a 32-byte allocated block whose right
neighbour is a 16-byte free block, followed by an allocated `last` block:
reallocating the first block to 48 payload bytes takes the copy-move path. -/
def sCp : MM :=
  { base := 0, blocks := [⟨32, true, false⟩, ⟨16, false, false⟩, ⟨16, true, true⟩],
    epiPrevfree := false, seg := [[124], [], [], [], [], [], [], [], []],
    last := some 140, mem := 1000 }

/-- The same heap as `sCp` but with the sbrk budget exhausted: every
allocation that needs new memory fails. -/
def sOom : MM := { sCp with mem := 0 }

/-- Concrete heap with a single 16-byte allocated block, whose end
coincides with `heap_end`. -/
def sOne : MM :=
  { base := 0, blocks := [⟨16, true, false⟩], epiPrevfree := false,
    seg := [[], [], [], [], [], [], [], [], []], last := some 92, mem := 0 }

/-- Concrete well-formed heap whose physically last (and only) block is a
32-byte free block, so a large `malloc` must extend the heap absorbing it. -/
def sTail : MM :=
  { base := 0, blocks := [⟨32, false, false⟩], epiPrevfree := true,
    seg := [[], [92], [], [], [], [], [], [], []], last := some 92, mem := 1000 }

/-- Claim C1: from any state satisfying the between-calls heap invariants of
the spec (established by a successful `mm_init`, whose arena base is
16-aligned), every successful `malloc` and `calloc` returns a payload
pointer congruent to 0 mod 16, and every successful `realloc` returns
either the original pointer (in-place reuse or extension) or a fresh
16-aligned payload pointer. -/
theorem claim_C1_payload_alignment (s : MM) (hWF : WF s) (hbase : s.base % 16 = 0) :
    (∀ n r, (malloc s n).1 = some r → r % 16 = 0) ∧
    (∀ a b r, (callocMM s a b).1 = some r → r % 16 = 0) ∧
    (∀ p n r, (reallocMM s p n).1 = some r → r = p ∨ r % 16 = 0) := by
  obtain ⟨hsz, hpf, hadj, hseg, hco, hlast, h9⟩ := hWF
  refine ⟨fun n r h => malloc_aligned s n r hsz hseg hlast hbase h,
    fun a b r h => ?_,
    fun p n r h => realloc_aligned s p n r hsz hseg hlast hbase h⟩
  rw [calloc_fst] at h
  exact malloc_aligned s (a * b) r hsz hseg hlast hbase h

theorem claim_C1_witness : (malloc sEx 20).1 = some 96 ∧ 96 % 16 = 0 :=
  ⟨by decide, (claim_C1_payload_alignment sEx (by decide) (by decide)).1 20 96 (by decide)⟩

/-- Concrete heap whose bucket 2 holds free blocks of sizes 64, 48 and 80
in that list order, exactly the S4 scenario of the spec.  (Under the
code's own classification an 80-byte block belongs to bucket 3, so this
state breaks invariant I6; `find_fit` never inspects the classification,
and the scenario is checked on it verbatim.) -/
def sS4 : MM :=
  { base := 0,
    blocks := [⟨64, false, false⟩, ⟨16, true, true⟩, ⟨48, false, false⟩,
      ⟨16, true, true⟩, ⟨80, false, false⟩, ⟨16, true, true⟩],
    epiPrevfree := false,
    seg := [[], [], [92, 172, 236], [], [], [], [], [], []],
    last := some 316, mem := 1000 }

/-- Claim C2: `find_fit asize` (for an adjusted size, a multiple of 16, on
a heap satisfying the bucket invariants) starts at bucket
`get_index asize` and returns the smallest sufficient block of the first
bucket, in increasing index order, that contains any block of size at
least `asize`; every earlier bucket holds only smaller blocks; and it
returns none exactly when no bucket holds a block of size at least
`asize`.  The final conjunct checks the claim's particular instance
verbatim: with free blocks of sizes 64, 48 and 80 in one bucket, a
request of 48 selects the 48-byte block at address 172, not the 64-byte
one at address 92. -/
theorem claim_C2_find_fit_best_fit (s : MM) (asize : Nat) (hseg : segWF s)
    (hsz : sizesOk s) (h9 : s.seg.length = 9) (h16 : asize % 16 = 0) (hge : 16 ≤ asize) :
    (∀ a, find_fit s asize = some a →
      ∃ k, get_index asize ≤ k ∧ k < 9 ∧ a ∈ bucketAt s k ∧ asize ≤ sizeAtD s a ∧
        (∀ p ∈ bucketAt s k, asize ≤ sizeAtD s p → sizeAtD s a ≤ sizeAtD s p) ∧
        (∀ k2, k2 < k → ∀ p ∈ bucketAt s k2, sizeAtD s p < asize)) ∧
    (find_fit s asize = none ↔ ∀ k, k < 9 → ∀ p ∈ bucketAt s k, sizeAtD s p < asize) ∧
    (bucketAt sS4 2 = [92, 172, 236] ∧ sizeAtD sS4 92 = 64 ∧ sizeAtD sS4 172 = 48 ∧
      sizeAtD sS4 236 = 80 ∧ find_fit sS4 48 = some 172) := by
  refine ⟨?_, ?_, by decide, by decide, by decide, by decide, by decide⟩
  · intro a h
    obtain ⟨k, hk0, hk9, hmem, hfit, hmin, hlow⟩ := find_fit_some_spec s asize a h
    refine ⟨k, hk0, by omega, hmem, hfit, hmin, ?_⟩
    intro k2 hk2 p hp
    by_cases hcase : get_index asize ≤ k2
    · exact hlow k2 hcase hk2 p hp
    · exact low_bucket_no_fit s asize hseg hsz h16 hge k2 (by omega) (by omega) p hp
  · rw [find_fit_none_iff_buckets]
    constructor
    · intro h k hk9 p hp
      by_cases hcase : get_index asize ≤ k
      · exact h k hcase (by omega) p hp
      · exact low_bucket_no_fit s asize hseg hsz h16 hge k (by omega) (by omega) p hp
    · intro h k hk0 hk9 p hp
      exact h k (by omega) p hp

theorem claim_C2_witness :
    find_fit sFit 48 = some 172 ∧ sizeAtD sFit 172 = 48 ∧ sizeAtD sFit 92 = 64 ∧
    92 ∈ bucketAt sFit 2 ∧ 172 ∈ bucketAt sFit 2 ∧
    (∃ k, get_index 48 ≤ k ∧ k < 9 ∧ 172 ∈ bucketAt sFit k ∧ 48 ≤ sizeAtD sFit 172 ∧
      (∀ p ∈ bucketAt sFit k, 48 ≤ sizeAtD sFit p → sizeAtD sFit 172 ≤ sizeAtD sFit p) ∧
      (∀ k2, k2 < k → ∀ p ∈ bucketAt sFit k2, sizeAtD sFit p < 48)) :=
  ⟨by decide, by decide, by decide, by decide, by decide,
    (claim_C2_find_fit_best_fit sFit 48 (by decide) (by decide) (by decide) (by decide)
      (by decide)).1 172 (by decide)⟩

/-- Claim C3 (code bug): invariant I4 demands that no two physically
adjacent blocks are both free between public calls, but the program
reachably violates it.  `realloc`'s extend-at-heap-end path clears the
grown block's PREVFREE bit even when its physical predecessor is free
(the `bt_make(block_ptr, asize, USED)` slip), so a subsequent `free` of
that block consults a stale bit, skips the left merge, and leaves two
physically adjacent free blocks.  Witnessed here on the fully
well-formed heap `sEx` - a free 32-byte block followed by the allocated
16-byte `last` block - where `realloc` of the last block to 40 payload
bytes succeeds, and the following `free` of the same pointer ends with
adjacent free 32- and 48-byte blocks; the same run is reproduced from
`mm_init` by `malloc(28)`, `malloc(12)`, `free` of the first pointer,
`realloc` of the second to 40 bytes, `free` of the second pointer. -/
theorem claim_C3_adjacent_free_bug :
    WF sEx ∧ noAdjFree sEx ∧
    (reallocMM sEx 128 40).1 = some 128 ∧
    (freeMM (reallocMM sEx 128 40).2.1 128).blocks
      = [⟨32, false, false⟩, ⟨48, false, false⟩] ∧
    ¬ noAdjFree (freeMM (reallocMM sEx 128 40).2.1 128) ∧
    (initMM 0 10000).map (fun s0 =>
      let s3 := freeMM ((malloc ((malloc s0 28).2.1) 12).2.1) 96
      decide (noAdjFree s3) &&
        !(decide (noAdjFree (freeMM (reallocMM s3 128 40).2.1 128)))) = some true :=
  ⟨by decide, by decide, by decide, by decide, by decide, by decide⟩

/-- Claim C4 (code bug): invariant I3 demands that a block's PREVFREE bit
be set exactly when its physical predecessor is free, but `realloc`'s
extend-at-heap-end path writes `bt_make(block_ptr, asize, USED)` without
`| bt_get_prevfree(block_ptr)` (unlike `place` and the in-place `realloc`
path), clearing the bit even when the previous block is free.  Witnessed
here on a fully well-formed two-block heap - a free 32-byte block followed
by the allocated 16-byte `last` block - where `realloc` of the last block
to 40 payload bytes succeeds in place via `extend_heap` yet leaves the
grown block's PREVFREE bit clear although its predecessor is still free;
the same run is reproduced from `mm_init` by `malloc(28)`, `malloc(12)`,
`free` of the first pointer, `realloc` of the second to 40 bytes. -/
theorem claim_C4_realloc_prevfree_bug :
    WF sEx ∧ pfOk sEx ∧
    (reallocMM sEx 128 40).1 = some 128 ∧
    (reallocMM sEx 128 40).2.1.blocks = [⟨32, false, false⟩, ⟨48, true, false⟩] ∧
    ¬ pfOk (reallocMM sEx 128 40).2.1 ∧
    (initMM 0 10000).map (fun s0 =>
      let s3 := freeMM ((malloc ((malloc s0 28).2.1) 12).2.1) 96
      decide (pfOk s3) && !(decide (pfOk ((reallocMM s3 128 40).2.1)))) = some true :=
  ⟨by decide, by decide, by decide, by decide, by decide, by decide⟩

/-- Claim C5 (counterexample): on the heap `sCp` the old block at header 92
has size 32 (`cur = 32`) and a free 16-byte right neighbour, and
`realloc(payload 96, 48)` takes the copy-move path; the claim predicts a
copy of `min(cur - 4, n) = min(28, 48) = 28` bytes, but the code copies
`free_size - 4 = (32 + 16) - 4 = 44` bytes, because `free_size` also
counts the free right neighbour. -/
theorem claim_C5_counterexample :
    WF sCp ∧ sizeAtD sCp 92 = 32 ∧ freeAtD sCp 124 = true ∧
    (reallocMM sCp 96 48).2.2 = [Event.sbrkCall 64, Event.memcpyEv 44] ∧
    Event.memcpyEv (min (32 - 4) 48) ∉ (reallocMM sCp 96 48).2.2 ∧
    min (32 - 4) 48 = 28 :=
  ⟨by decide, by decide, by decide, by decide, by decide, by decide⟩

/-- Claim C5 (amended): when `realloc(p, n)` with live non-null `p` and
`n > 0` can neither satisfy the request in place (`free_size < asize`) nor
extend at the heap end, and the inner `malloc` succeeds, it returns the
fresh pointer, copies exactly `free_size - 4` bytes - the old block's size
plus a free right neighbour's size, minus the header word - and frees the
old block. -/
theorem claim_C5_amended_copy (s : MM) (p n i q : Nat) (s1 : MM) (ev : List Event)
    (hp : ¬ p = 0) (hn : ¬ n = 0) (hidx : idxOfAddr s (p - 4) = some i)
    (hfsz : free_size s i < round_up (n + 4))
    (hcl : change_last s i (p - 4) = false)
    (hml : malloc s n = (some q, s1, ev)) :
    reallocMM s p n = (some q, freeMM s1 p, ev ++ [Event.memcpyEv (free_size s i - 4)]) :=
  realloc_copy_moves s p n i q s1 ev hp hn hidx hfsz hcl hml

theorem claim_C5_witness :
    reallocMM sCp 96 48 = (some 160, freeMM (malloc sCp 48).2.1 96,
      (malloc sCp 48).2.2 ++ [Event.memcpyEv (free_size sCp 0 - 4)]) :=
  claim_C5_amended_copy sCp 96 48 0 160 (malloc sCp 48).2.1 (malloc sCp 48).2.2
    (by decide) (by decide) (by decide) (by decide) (by decide) (by decide)

/-- Claim C6: for `realloc(p, n)` with non-null `p` and `n > 0`, whenever
the call returns null - which happens exactly when the sbrk provider
refuses the one extension request the call makes - the allocator state is
bit-for-bit the state before the call (the block at `p` keeps its address,
size and flags), and no `memcpy` or `memset` was issued, so the payload
bytes are untouched as well. -/
theorem claim_C6_realloc_oom (s : MM) (p n : Nat) (hp : ¬ p = 0) (hn : ¬ n = 0)
    (h : (reallocMM s p n).1 = none) :
    (reallocMM s p n).2.1 = s ∧
    (∀ k, Event.memcpyEv k ∉ (reallocMM s p n).2.2 ∧
      Event.memsetEv k ∉ (reallocMM s p n).2.2) :=
  realloc_oom_core s p n hp hn h

theorem claim_C6_witness :
    (reallocMM sOom 96 48).2.1 = sOom ∧
    Event.memcpyEv 44 ∉ (reallocMM sOom 96 48).2.2 :=
  ⟨(claim_C6_realloc_oom sOom 96 48 (by decide) (by decide) (by decide)).1,
    ((claim_C6_realloc_oom sOom 96 48 (by decide) (by decide) (by decide)).2 44).1⟩

/-- Claim C7 (counterexample): on a heap with one 16-byte block whose end
coincides with `heap_end`, the physical-next lookup of that block computes
exactly `heap_end` and returns it (the epilogue header) rather than none:
the C comparison is `next <= heap_end`, so an address that meets
`heap_end` is still returned, refuting "none whenever the computed address
meets or exceeds `heap_end`". -/
theorem claim_C7_counterexample :
    heapStart sOne + sizeAtD sOne (heapStart sOne) = heapEnd sOne ∧
    bt_next sOne (heapStart sOne) = some (heapEnd sOne) ∧
    bt_next sOne (heapStart sOne) ≠ none :=
  ⟨by decide, by decide, by decide⟩

/-- Claim C7 (amended): `next(h) = h + size` for every real block, and the
result is returned whenever it does not strictly exceed `heap_end`; in
particular the block whose end coincides with `heap_end` gets the epilogue
header address `heap_end`, and none is returned only for computed
addresses strictly past `heap_end`. -/
theorem claim_C7_amended_bt_next (s : MM) (hsz : sizesOk s) (i : Nat)
    (hi : i < s.blocks.length) :
    bt_next s (addrOf s i) = some (addrOf s i + (getBlk s i).size) ∧
    (i = s.blocks.length - 1 → addrOf s i + (getBlk s i).size = heapEnd s ∧
      bt_next s (addrOf s i) = some (heapEnd s)) ∧
    (∀ a, bt_next s a = none ↔ heapEnd s < a + sizeAtD s a) := by
  have h1 := addrOf_le_heapEnd s i (le_of_lt hi)
  rw [drop_decomp s i hi, sumSizes_cons] at h1
  have hle : addrOf s i + (getBlk s i).size ≤ heapEnd s := by omega
  have hsa : sizeAtD s (addrOf s i) = (getBlk s i).size := sizeAtD_addrOf s hsz i hi
  have hfst : bt_next s (addrOf s i) = some (addrOf s i + (getBlk s i).size) := by
    unfold bt_next
    simp only [hsa]
    rw [if_pos hle]
  refine ⟨hfst, ?_, ?_⟩
  · intro hlast
    have hdrop : s.blocks.drop (i + 1) = [] := by
      apply List.drop_eq_nil_of_le
      omega
    rw [hdrop, sumSizes_nil] at h1
    have heq : addrOf s i + (getBlk s i).size = heapEnd s := by omega
    exact ⟨heq, by rw [hfst, heq]⟩
  · intro a
    unfold bt_next
    show (if a + sizeAtD s a ≤ heapEnd s then some (a + sizeAtD s a) else none) = none ↔
      heapEnd s < a + sizeAtD s a
    split_ifs with h
    · constructor
      · intro hcon; simp at hcon
      · intro hcon; omega
    · constructor
      · intro _; omega
      · intro _; rfl

theorem claim_C7_witness :
    bt_next sOne (addrOf sOne 0) = some (addrOf sOne 0 + (getBlk sOne 0).size) :=
  (claim_C7_amended_bt_next sOne (by decide) 0 (by decide)).1

/-- Claim C8: when `malloc(size)` finds no fit and the physically last
block is free, the sbrk provider is invoked for exactly
`asize - size(last)` bytes with `asize = round_up(size + 4)`, and the
resulting allocated block starts at `last`'s address with size exactly
`asize` (its size plus the extension absorb the old free tail). -/
theorem claim_C8_extend_absorbs_tail (s : MM) (size la : Nat) (hWF : WF s)
    (hn : ¬ size = 0) (hff : find_fit s (round_up (size + 4)) = none)
    (hla : s.last = some la) (hfree : freeAtD s la = true)
    (hmem : ¬ s.mem < round_up (size + 4) - sizeAtD s la) :
    (malloc s size).2.2 = [Event.sbrkCall (round_up (size + 4) - sizeAtD s la)] ∧
    (malloc s size).1 = some (la + 4) ∧
    (malloc s size).2.1.blocks =
      s.blocks.take (s.blocks.length - 1) ++ [⟨round_up (size + 4), true, false⟩] ∧
    addrOf (malloc s size).2.1 (s.blocks.length - 1) = la ∧
    sizeAtD s la < round_up (size + 4) :=
  malloc_extend_absorbing s size la hWF hn hff hla hfree hmem

theorem claim_C8_witness :
    (malloc sTail 60).2.2 = [Event.sbrkCall (round_up (60 + 4) - sizeAtD sTail 92)] ∧
    (malloc sTail 60).1 = some (92 + 4) ∧
    (malloc sTail 60).2.1.blocks =
      sTail.blocks.take (sTail.blocks.length - 1) ++ [⟨round_up (60 + 4), true, false⟩] ∧
    addrOf (malloc sTail 60).2.1 (sTail.blocks.length - 1) = 92 ∧
    sizeAtD sTail 92 < round_up (60 + 4) :=
  claim_C8_extend_absorbs_tail sTail 60 92 (by decide) (by decide) (by decide)
    (by decide) (by decide) (by decide)

/-- Claim C9 (counterexample): `get_index` is not monotone over all sizes:
`17 ≤ 32` but `get_index 17 = 2 > 1 = get_index 32`, because every size
at most 64 other than exactly 16 and exactly 32 lands in bucket 2. -/
theorem claim_C9_counterexample :
    (17 ≤ 32 ∧ get_index 17 = 2 ∧ get_index 32 = 1) ∧
    ¬ (∀ a b : Nat, a ≤ b → get_index a ≤ get_index b) := by
  refine ⟨by decide, ?_⟩
  intro h
  have := h 17 32 (by omega)
  revert this
  decide

/-- Claim C9 (amended): `get_index` is monotone non-decreasing on the
sizes that actually occur as block sizes - multiples of 16 that are at
least 16 - and agrees with the size-class table of §3: 0 for exactly 16,
1 for exactly 32, 2 for (32,64], 3 for (64,128], 4 for (128,256], 5 for
(256,512], 6 for (512,1024], 7 for (1024,2048], 8 above 2048. -/
theorem claim_C9_amended_get_index :
    (∀ a b : Nat, a % 16 = 0 → b % 16 = 0 → 16 ≤ a → a ≤ b →
      get_index a ≤ get_index b) ∧
    get_index 16 = 0 ∧ get_index 32 = 1 ∧
    (∀ n, 32 < n → n ≤ 64 → get_index n = 2) ∧
    (∀ n, 64 < n → n ≤ 128 → get_index n = 3) ∧
    (∀ n, 128 < n → n ≤ 256 → get_index n = 4) ∧
    (∀ n, 256 < n → n ≤ 512 → get_index n = 5) ∧
    (∀ n, 512 < n → n ≤ 1024 → get_index n = 6) ∧
    (∀ n, 1024 < n → n ≤ 2048 → get_index n = 7) ∧
    (∀ n, 2048 < n → get_index n = 8) := by
  refine ⟨get_index_mono_of_align, by decide, by decide, ?_, ?_, ?_, ?_, ?_, ?_, ?_⟩
  all_goals
    intros
    unfold get_index
    split_ifs <;> omega

theorem claim_C9_witness :
    get_index 48 ≤ get_index 64 ∧ get_index 100 = 3 :=
  ⟨claim_C9_amended_get_index.1 48 64 (by decide) (by decide) (by decide) (by decide),
    claim_C9_amended_get_index.2.2.2.2.1 100 (by decide) (by decide)⟩

/-- Claim C10 (implicit): when `find_fit asize` returns none for a 16-byte
multiple `asize` (as every adjusted request size is) on a heap satisfying
the between-calls invariants, every free block is strictly smaller than
`asize`; hence in `malloc`'s miss path, when `last` is free, the
`size_t` subtraction `asize - size(last)` cannot underflow (the subtrahend
is strictly smaller) and the sbrk request is strictly positive; the
quantity actually subtracted, `lastFreeSize`, equals `size(last)` there. -/
theorem claim_C10_no_fit_size_bound (s : MM) (asize : Nat) (hWF : WF s)
    (h16 : asize % 16 = 0) (hge : 16 ≤ asize)
    (hnone : find_fit s asize = none) :
    (∀ i, i < s.blocks.length → (getBlk s i).used = false → (getBlk s i).size < asize) ∧
    (∀ la, s.last = some la → freeAtD s la = true →
      sizeAtD s la < asize ∧ 0 < asize - sizeAtD s la ∧
      asize - sizeAtD s la + sizeAtD s la = asize ∧
      lastFreeSize s = sizeAtD s la) := by
  obtain ⟨hsz, hpf, hadj, hseg, hco, hlast, h9⟩ := hWF
  have hmain := find_fit_none_sizes s asize hseg hco hsz h16 hge hnone
  refine ⟨hmain, ?_⟩
  intro la hla hfree
  obtain ⟨hne, haddr⟩ := lastOk_nonempty s hlast la hla
  have hlen : 0 < s.blocks.length := List.length_pos.2 hne
  have hi : s.blocks.length - 1 < s.blocks.length := by omega
  have hused : (getBlk s (s.blocks.length - 1)).used = false := by
    rw [haddr, freeAtD_addrOf s hsz _ hi] at hfree
    simpa using hfree
  have hsla : sizeAtD s la = (getBlk s (s.blocks.length - 1)).size := by
    rw [haddr, sizeAtD_addrOf s hsz _ hi]
  have hlt := hmain _ hi hused
  refine ⟨by omega, by omega, by omega, lastFreeSize_eq s la hla hfree⟩

theorem claim_C10_witness :
    sizeAtD sTail 92 < 64 ∧ 0 < 64 - sizeAtD sTail 92 ∧
    64 - sizeAtD sTail 92 + sizeAtD sTail 92 = 64 ∧
    lastFreeSize sTail = sizeAtD sTail 92 :=
  (claim_C10_no_fit_size_bound sTail 64 (by decide) (by decide) (by decide)
    (by decide)).2 92 (by decide) (by decide)
